import Mathlib

/-!
Verification of editor-rope, a persistent implicit treap with linear undo/redo.

Shallow embedding of `src/editor.h`.

* `Node T` is what a `NodePtr` (a `std::shared_ptr<const Node<T>>`) points to:
  `Node.null` is `nullptr`, `Node.cell` is a node record with the five fields
  `data`, `size`, `priority`, `left`, `right`.  The `size` field is *stored*, as
  in the source, and is not recomputed when it is read.
* `size_t` and `uint_fast32_t` values are natural numbers.  Every subtraction of
  the source is guarded in the source itself (`size - left_size - 1` runs only
  when `left_size < size`, `max(c, 1) - 1`, `c - 1` only when `c != 0`), so
  truncated subtraction on `Nat` agrees with the machine result.
  `Split` only builds nodes no larger than its argument, and in the editor sizes,
  cursors and `pos_` grow by at most one per call and are bounded by the number
  of stored versions, so no addition can wrap around before the history
  vectors exhaust memory.
  `Merge` adds the sizes of its two arguments, and there a wrap-around is within
  reach of the public `Node` interface: a tree that shares subtrees with itself
  (`Merge(t, t)`, repeated) has `2^64` in-order elements after 63 doublings.  The
  engine with every size computed in `size_t`, modulo `2^64`, is `make64`,
  `WithLeft64`, `WithRight64`, `Split64`, `Merge64`; it is the exact engine
  wherever the sizes stay below `2^64` (`Split64_eq_Split`, `Merge64_eq_Merge`).
* The draw `rnd()` of the one-argument constructor is an explicit argument
  (`priority`) of `Node.leaf` and of `Editor.TypeSymbol`.
* A dereference of `nullptr` and an out-of-range `operator[]` are failures:
  functions that can reach one return `Option`.
-/

/-- A `NodePtr`: either `nullptr` or a node record with its five fields. -/
inductive Node (T : Type) where
  | null : Node T
  | cell (data : T) (size : Nat) (priority : Nat) (left right : Node T) : Node T
deriving DecidableEq, Repr

namespace Node

variable {T : Type}

/-- Embedding of `Node::Size`: 0 for `nullptr`, the stored field otherwise. -/
def Size : Node T → Nat
  | null => 0
  | cell _ size _ _ _ => size

/-- The constructor `Node(T data)`: a leaf of size 1 whose priority is the value
drawn from `rnd`. -/
def leaf (data : T) (priority : Nat) : Node T :=
  cell data 1 priority null null

/-- The constructor `Node(T data, priority, left, right)`: the size is computed
from the stored sizes of the two children.  The sum is exact here; `make64`
computes it in `size_t`. -/
def make (data : T) (priority : Nat) (left right : Node T) : Node T :=
  cell data (Size left + 1 + Size right) priority left right

/-- Embedding of `Node::WithLeft`.  A member function: the receiver is never `nullptr` at a
call site of the source (both callers test it first). -/
def WithLeft : Node T → Node T → Node T
  | null, _ => null
  | cell data _ priority _ right, new_left => make data priority new_left right

/-- Embedding of `Node::WithRight`.  A member function: the receiver is never `nullptr` at a
call site of the source (both callers test it first). -/
def WithRight : Node T → Node T → Node T
  | null, _ => null
  | cell data _ priority left _, new_right => make data priority left new_right

/-- Embedding of `Node::Split`.  `none` is the dereference `node->left` of a `nullptr`. -/
def Split (node : Node T) (size : Nat) : Option (Node T × Node T) :=
  if size = 0 then some (null, node)
  else if size = Size node then some (node, null)
  else
    match node with
    | null => none
    | cell data sz priority left right =>
      if Size left ≥ size then
        match Split left size with
        | none => none
        | some (lhs, rhs) => some (lhs, WithLeft (cell data sz priority left right) rhs)
      else
        match Split right (size - Size left - 1) with
        | none => none
        | some (lhs, rhs) => some (WithRight (cell data sz priority left right) lhs, rhs)

/-- The calls `Merge(left, right)` with `left` a fixed non-null node of priority
`lp`, by recursion over `right`; `mergeRight` is `Merge(left->right, ·)`. -/
def mergeInto (left : Node T) (lp : Nat) (mergeRight : Node T → Node T) : Node T → Node T
  | null => left
  | cell rd rs rp rl rr =>
    if lp < rp then
      WithRight left (mergeRight (cell rd rs rp rl rr))
    else
      WithLeft (cell rd rs rp rl rr) (mergeInto left lp mergeRight rl)

/-- Embedding of `Node::Merge`.  The source recurses either into `left->right` or into
`right->left`; the recursion is nested here, over `left` outside and over `right`
inside (`mergeInto`), which makes it structural.  `Merge_cell` states the
recursion in the shape of the source. -/
def Merge : Node T → Node T → Node T
  | null, right => right
  | cell ld ls lp ll lr, right => mergeInto (cell ld ls lp ll lr) lp (Merge lr) right

/-- Embedding of `Node::PrintTo`.  The output iterator is the buffer written so far;
`*write++ = data` appends one value to it. -/
def PrintTo : Node T → List T → List T
  | null, write => write
  | cell data _ _ left right, write => PrintTo right (PrintTo left write ++ [data])

/-- Size consistency: every node's stored size is `1 + Size(left) + Size(right)`. -/
def SizeOk : Node T → Prop
  | null => True
  | cell _ size _ left right =>
    size = 1 + Size left + Size right ∧ SizeOk left ∧ SizeOk right

instance decSizeOk : (t : Node T) → Decidable (SizeOk t)
  | null => isTrue trivial
  | cell _ size _ left right =>
    have := decSizeOk left
    have := decSizeOk right
    inferInstanceAs (Decidable (size = 1 + Size left + Size right ∧ SizeOk left ∧ SizeOk right))

end Node

open Node

/-! ## The editor -/

/-- Embedding of `std::vector::resize(n)`: keep the first `n` elements, pad with the
value-initialised element `dflt` up to length `n`. -/
def resize {α : Type} (v : List α) (n : Nat) (dflt : α) : List α :=
  v.take n ++ List.replicate (n - v.length) dflt

/-- The assignment `v[i] = x`; `none` when `i` is out of range. -/
def assign {α : Type} (v : List α) (i : Nat) (x : α) : Option (List α) :=
  if i < v.length then some (v.set i x) else none

/-- The three data members of `Editor`. -/
structure Editor where
  pos_ : Nat
  states_ : List (Node Char)
  cursors_ : List Nat
deriving DecidableEq, Repr

namespace Editor

/-- The default-constructed editor: `pos_ = 0`, `states_{nullptr}`, `cursors_{0}`. -/
def init : Editor := ⟨0, [null], [0]⟩

/-- Embedding of `Editor::GetText`. -/
def GetText (e : Editor) : Option String := do
  let root ← e.states_[e.pos_]?
  some (String.mk (PrintTo root []))

/-- The cursor of the current version, `cursors_[pos_]`. -/
def cursor (e : Editor) : Option Nat := e.cursors_[e.pos_]?

/-- Embedding of `Editor::Type` (`Type` is reserved in Lean).  `priority` is the value that
`rnd()` returns for the new node. -/
def TypeSymbol (e : Editor) (symbol : Char) (priority : Nat) : Option Editor := do
  let states := resize e.states_ (e.pos_ + 2) null
  let cursors := resize e.cursors_ (e.pos_ + 2) 0
  let root ← states[e.pos_]?
  let c ← cursors[e.pos_]?
  let (before, after) ← Split root c
  let symbol_node := leaf symbol priority
  let states ← assign states (e.pos_ + 1) (Merge before (Merge symbol_node after))
  let c ← cursors[e.pos_]?
  let cursors ← assign cursors (e.pos_ + 1) (c + 1)
  some ⟨e.pos_ + 1, states, cursors⟩

/-- Embedding of `Editor::ShiftLeft`. -/
def ShiftLeft (e : Editor) : Option Editor := do
  let root ← e.states_[e.pos_]?
  if Size root = 0 then
    some e
  else
    let states := resize e.states_ (e.pos_ + 2) null
    let cursors := resize e.cursors_ (e.pos_ + 2) 0
    let root ← states[e.pos_]?
    let states ← assign states (e.pos_ + 1) root
    let c ← cursors[e.pos_]?
    let cursors ← assign cursors (e.pos_ + 1) (max c 1 - 1)
    some ⟨e.pos_ + 1, states, cursors⟩

/-- Embedding of `Editor::ShiftRight`. -/
def ShiftRight (e : Editor) : Option Editor := do
  let root ← e.states_[e.pos_]?
  let c ← e.cursors_[e.pos_]?
  if Size root = c then
    some e
  else
    let states := resize e.states_ (e.pos_ + 2) null
    let cursors := resize e.cursors_ (e.pos_ + 2) 0
    let root ← states[e.pos_]?
    let states ← assign states (e.pos_ + 1) root
    let c ← cursors[e.pos_]?
    let cursors ← assign cursors (e.pos_ + 1) (c + 1)
    some ⟨e.pos_ + 1, states, cursors⟩

/-- Embedding of `Editor::Backspace`. -/
def Backspace (e : Editor) : Option Editor := do
  let states := resize e.states_ (e.pos_ + 2) null
  let cursors := resize e.cursors_ (e.pos_ + 2) 0
  let c ← cursors[e.pos_]?
  if c = 0 then
    let root ← states[e.pos_]?
    let states ← assign states (e.pos_ + 1) root
    let cursors ← assign cursors (e.pos_ + 1) 0
    some ⟨e.pos_ + 1, states, cursors⟩
  else
    let root ← states[e.pos_]?
    let (before, mid_after) ← Split root (c - 1)
    let (_mid, after) ← Split mid_after 1
    let states ← assign states (e.pos_ + 1) (Merge before after)
    let cursors ← assign cursors (e.pos_ + 1) (c - 1)
    some ⟨e.pos_ + 1, states, cursors⟩

/-- Embedding of `Editor::Undo`. -/
def Undo (e : Editor) : Editor :=
  if e.pos_ ≠ 0 then { e with pos_ := e.pos_ - 1 } else e

/-- Embedding of `Editor::Redo`. -/
def Redo (e : Editor) : Editor :=
  if e.pos_ + 1 < e.states_.length then { e with pos_ := e.pos_ + 1 } else e

end Editor

/-- One call on the editor's public interface.  `type` carries the character and
the priority drawn for the new node. -/
inductive Op where
  | type (symbol : Char) (priority : Nat)
  | shiftLeft
  | shiftRight
  | backspace
  | undo
  | redo
deriving DecidableEq, Repr

namespace Editor

/-- Perform one call. -/
def step (e : Editor) : Op → Option Editor
  | Op.type symbol priority => e.TypeSymbol symbol priority
  | Op.shiftLeft => e.ShiftLeft
  | Op.shiftRight => e.ShiftRight
  | Op.backspace => e.Backspace
  | Op.undo => some e.Undo
  | Op.redo => some e.Redo

/-- Perform a sequence of calls, first to last. -/
def run (e : Editor) : List Op → Option Editor
  | [] => some e
  | op :: ops => (e.step op).bind (fun e1 => run e1 ops)

/-- The states the editor can be in: those a finite sequence of calls produces
from the default-constructed editor. -/
def Reachable (e : Editor) : Prop := ∃ ops : List Op, run init ops = some e

end Editor


/-! ## Auxiliary notions used to state the properties -/

namespace Op

/-- The four calls that can store a version: `Type`, `ShiftLeft`, `ShiftRight`,
`Backspace`. -/
def mutating : Op → Bool
  | type _ _ => true
  | shiftLeft => true
  | shiftRight => true
  | backspace => true
  | undo => false
  | redo => false

end Op

namespace Editor

/-- Whether the call `op`, made in state `e`, gets past the guard at the top of
its body and stores a version: always for `Type` and `Backspace`, when
`Size(states_[pos_]) != 0` for `ShiftLeft`, when `Size(states_[pos_]) != cursors_[pos_]`
for `ShiftRight`, never for `Undo` and `Redo`. -/
def stores (e : Editor) : Op → Bool
  | Op.type _ _ => true
  | Op.backspace => true
  | Op.shiftLeft =>
    match e.states_[e.pos_]? with
    | some root => Size root != 0
    | none => false
  | Op.shiftRight =>
    match e.states_[e.pos_]?, e.cursors_[e.pos_]? with
    | some root, some c => Size root != c
    | _, _ => false
  | Op.undo => false
  | Op.redo => false

/-- Truncate the history after the current version and append one version:
what `resize(pos_ + 2)` followed by the two writes at `pos_ + 1` and `++pos_`
does to a well-formed editor. -/
def push (e : Editor) (root : Node Char) (c : Nat) : Editor :=
  ⟨e.pos_ + 1, e.states_.take (e.pos_ + 1) ++ [root], e.cursors_.take (e.pos_ + 1) ++ [c]⟩

/-- Well-formed editor states: the two vectors have one length, `pos_` is an
index into them, version 0 is the empty buffer, and every stored version has a
size-consistent root and a cursor within it. -/
structure WellFormed (e : Editor) : Prop where
  len_eq : e.states_.length = e.cursors_.length
  pos_lt : e.pos_ < e.states_.length
  first : e.states_[0]? = some null ∧ e.cursors_[0]? = some 0
  ok : ∀ (i : Nat) (r : Node Char) (c : Nat),
    e.states_[i]? = some r → e.cursors_[i]? = some c → SizeOk r ∧ c ≤ Size r

end Editor

/-- A size-consistent three-node tree with in-order sequence `a b c`. -/
def sampleTree : Node Char :=
  cell 'b' 3 3 (cell 'a' 1 5 null null) (cell 'c' 1 9 null null)

/-- The editor after `Type('a')` on the empty editor, the new node having
priority 5. -/
def typedA : Editor := ⟨1, [null, leaf 'a' 5], [0, 1]⟩

/-- The editor after `Type('a')` (priority 5) and `Undo()`. -/
def undoneA : Editor := ⟨0, [null, leaf 'a' 5], [0, 1]⟩

/-- The editor after `Type('a')` (priority 5) and `ShiftLeft()`: the cursor is 0
in the one-character buffer. -/
def shiftedA : Editor := ⟨2, [null, leaf 'a' 5, leaf 'a' 5], [0, 1, 0]⟩

/-- The editor after `Type('a')` (priority 5), `Type('b')` (priority 3) and
`Undo()`. -/
def undoneAB : Editor :=
  ⟨1, [null, leaf 'a' 5, cell 'b' 2 3 (leaf 'a' 5) null], [0, 1, 2]⟩

/-! ## Heap order, trees built by the engine, calls up to priorities -/

namespace Node

variable {T : Type}

/-- The priority `p` of a parent stands in relation `R` to the priority of the
root of the child `t`, when the child is not `nullptr`. -/
def rootRel (R : Nat → Nat → Prop) (p : Nat) : Node T → Prop
  | null => True
  | cell _ _ q _ _ => R p q

/-- Every node's priority stands in relation `R` to the priority of its left
child root and of its right child root whenever they exist. -/
def HeapBy (R : Nat → Nat → Prop) : Node T → Prop
  | null => True
  | cell _ _ p left right =>
    rootRel R p left ∧ rootRel R p right ∧ HeapBy R left ∧ HeapBy R right

/-- Heap-ordered (min-heap): every node's priority is `≤` the priority of each
child root. -/
def HeapOk (t : Node T) : Prop := HeapBy (fun p q => p ≤ q) t

/-- Strictly heap-ordered: every node's priority is `<` the priority of each
child root. -/
def StrictHeap (t : Node T) : Prop := HeapBy (fun p q => p < q) t

instance decRootRel (R : Nat → Nat → Prop) [DecidableRel R] (p : Nat) :
    (t : Node T) → Decidable (rootRel R p t)
  | null => isTrue trivial
  | cell _ _ q _ _ => inferInstanceAs (Decidable (R p q))

instance decHeapBy (R : Nat → Nat → Prop) [DecidableRel R] :
    (t : Node T) → Decidable (HeapBy R t)
  | null => isTrue trivial
  | cell _ _ p left right =>
    have := decHeapBy R left
    have := decHeapBy R right
    inferInstanceAs
      (Decidable (rootRel R p left ∧ rootRel R p right ∧ HeapBy R left ∧ HeapBy R right))

instance decHeapOk (t : Node T) : Decidable (HeapOk t) :=
  decHeapBy (fun p q => p ≤ q) t

instance decStrictHeap (t : Node T) : Decidable (StrictHeap t) :=
  decHeapBy (fun p q => p < q) t

/-- The priorities of the nodes of a tree, in in-order. -/
def priorities : Node T → List Nat
  | null => []
  | cell _ _ p left right => priorities left ++ p :: priorities right

end Node

namespace Op

/-- The call without the priority drawn for it: what the caller of the editor
chooses. -/
def unprioritised : Op → Op
  | type symbol _ => type symbol 0
  | shiftLeft => shiftLeft
  | shiftRight => shiftRight
  | backspace => backspace
  | undo => undo
  | redo => redo

end Op

namespace Editor

/-- The text of every stored version, `PrintTo` of each stored root. -/
def texts (e : Editor) : List (List Char) :=
  e.states_.map (fun root => PrintTo root [])

/-- Two editors agree on what can be observed: the version pointer, and the
text and cursor of every stored version (so also the history length). -/
def Agree (e1 e2 : Editor) : Prop :=
  e1.pos_ = e2.pos_ ∧ e1.texts = e2.texts ∧ e1.cursors_ = e2.cursors_

end Editor

/-! ## The treap engine -/

namespace Node

variable {T : Type}

theorem Size_null : Size (null : Node T) = 0 := rfl

theorem Size_cell (d : T) (s p : Nat) (l r : Node T) : Size (cell d s p l r) = s := rfl

theorem PrintTo_eq_append (t : Node T) (w : List T) : PrintTo t w = w ++ PrintTo t [] := by
  induction t generalizing w with
  | null => simp [PrintTo]
  | cell d s p l r ihl ihr =>
    simp only [PrintTo]
    rw [ihr (PrintTo l w ++ [d]), ihr (PrintTo l [] ++ [d]), ihl w]
    simp

theorem PrintTo_null : PrintTo (null : Node T) [] = [] := rfl

theorem PrintTo_cell (d : T) (s p : Nat) (l r : Node T) :
    PrintTo (cell d s p l r) [] = PrintTo l [] ++ d :: PrintTo r [] := by
  simp only [PrintTo]
  rw [PrintTo_eq_append r]
  simp

theorem PrintTo_make (d : T) (p : Nat) (l r : Node T) :
    PrintTo (make d p l r) [] = PrintTo l [] ++ d :: PrintTo r [] := by
  unfold make; exact PrintTo_cell ..

theorem PrintTo_leaf (d : T) (p : Nat) : PrintTo (leaf d p) [] = [d] := rfl

theorem SizeOk_make (d : T) (p : Nat) (l r : Node T) (hl : SizeOk l) (hr : SizeOk r) :
    SizeOk (make d p l r) := by
  unfold make; exact ⟨by omega, hl, hr⟩

theorem SizeOk_leaf (d : T) (p : Nat) : SizeOk (leaf d p) := ⟨rfl, trivial, trivial⟩

theorem Size_make (d : T) (p : Nat) (l r : Node T) :
    Size (make d p l r) = Size l + 1 + Size r := rfl

theorem Size_eq_length (t : Node T) (h : SizeOk t) : Size t = (PrintTo t []).length := by
  induction t with
  | null => rfl
  | cell d s p l r ihl ihr =>
    obtain ⟨hs, hl, hr⟩ := h
    rw [PrintTo_cell, Size_cell, List.length_append, List.length_cons, ← ihl hl, ← ihr hr]
    omega

theorem Merge_null_left (r : Node T) : Merge null r = r := rfl

theorem Merge_null_right (l : Node T) : Merge l null = l := by
  cases l <;> rfl

/-- The recursion of `Merge` in the shape of the source. -/
theorem Merge_cell (ld : T) (ls lp : Nat) (ll lr : Node T) (rd : T) (rs rp : Nat)
    (rl rr : Node T) :
    Merge (cell ld ls lp ll lr) (cell rd rs rp rl rr) =
      if lp < rp then
        WithRight (cell ld ls lp ll lr) (Merge lr (cell rd rs rp rl rr))
      else
        WithLeft (cell rd rs rp rl rr) (Merge (cell ld ls lp ll lr) rl) := rfl

theorem Merge_print (l r : Node T) : PrintTo (Merge l r) [] = PrintTo l [] ++ PrintTo r [] := by
  induction l generalizing r with
  | null => simp [Merge_null_left, PrintTo_null]
  | cell ld ls lp ll lr _ ihlr =>
    induction r with
    | null => simp [Merge_null_right, PrintTo_null]
    | cell rd rs rp rl rr ihrl _ =>
      rw [Merge_cell]
      split
      · simp only [WithRight]
        rw [PrintTo_make, ihlr]
        simp [PrintTo_cell]
      · simp only [WithLeft]
        rw [PrintTo_make, ihrl]
        simp [PrintTo_cell]

theorem Merge_SizeOk (l r : Node T) (hl : SizeOk l) (hr : SizeOk r) :
    SizeOk (Merge l r) ∧ Size (Merge l r) = Size l + Size r := by
  induction l generalizing r with
  | null => simp [Merge_null_left, Size_null, hr]
  | cell ld ls lp ll lr _ ihlr =>
    induction r with
    | null => simp [Merge_null_right, Size_null, hl]
    | cell rd rs rp rl rr ihrl _ =>
      obtain ⟨hls, hll, hlr⟩ := hl
      obtain ⟨hrs, hrl, hrr⟩ := hr
      rw [Merge_cell]
      split
      · simp only [WithRight]
        obtain ⟨h1, h2⟩ := ihlr (cell rd rs rp rl rr) hlr ⟨hrs, hrl, hrr⟩
        refine ⟨SizeOk_make _ _ _ _ hll h1, ?_⟩
        rw [Size_make, h2]; simp only [Size_cell]; omega
      · simp only [WithLeft]
        obtain ⟨h1, h2⟩ := ihrl hrl
        refine ⟨SizeOk_make _ _ _ _ h1 hrr, ?_⟩
        rw [Size_make, h2]; simp only [Size_cell]; omega

theorem Split_zero (t : Node T) : Split t 0 = some (null, t) := by
  cases t <;> simp [Split]

theorem Split_cell (d : T) (s p : Nat) (l r : Node T) (k : Nat) :
    Split (cell d s p l r) k =
      if k = 0 then some (null, cell d s p l r)
      else if k = s then some (cell d s p l r, null)
      else if Size l ≥ k then
        (Split l k).bind (fun x => some (x.1, make d p x.2 r))
      else
        (Split r (k - Size l - 1)).bind (fun x => some (make d p l x.1, x.2)) := by
  rw [Split]
  simp only [Size_cell, WithLeft, WithRight]
  split_ifs
  · rfl
  · rfl
  · cases Split l k <;> rfl
  · cases Split r (k - Size l - 1) <;> rfl

theorem Split_spec (t : Node T) (k : Nat) (ht : SizeOk t) (hk : k ≤ Size t) :
    ∃ L R, Split t k = some (L, R) ∧ SizeOk L ∧ SizeOk R ∧
      PrintTo L [] = (PrintTo t []).take k ∧ PrintTo R [] = (PrintTo t []).drop k := by
  induction t generalizing k with
  | null =>
    have : k = 0 := by simpa [Size_null] using hk
    subst this
    exact ⟨null, null, Split_zero _, trivial, trivial, by simp [PrintTo], by simp [PrintTo]⟩
  | cell d s p l r ihl ihr =>
    have hlen := Size_eq_length _ ht
    by_cases h0 : k = 0
    · subst h0
      exact ⟨null, _, Split_zero _, trivial, ht, by simp [PrintTo], by simp⟩
    rw [Size_cell] at hk hlen
    by_cases h1 : k = s
    · refine ⟨_, null, by rw [Split_cell, if_neg h0, if_pos h1], ht, trivial, ?_, ?_⟩
      · rw [List.take_of_length_le (by omega)]
      · rw [List.drop_of_length_le (by omega)]; rfl
    obtain ⟨hs, hl, hr⟩ := ht
    have hll := Size_eq_length _ hl
    have hrl := Size_eq_length _ hr
    by_cases h2 : Size l ≥ k
    · obtain ⟨L, R, e, oL, oR, pL, pR⟩ := ihl k hl h2
      have hk2 : k ≤ (PrintTo l []).length := by omega
      refine ⟨L, make d p R r, ?_, oL, SizeOk_make _ _ _ _ oR hr, ?_, ?_⟩
      · rw [Split_cell, if_neg h0, if_neg h1, if_pos h2, e]; rfl
      · rw [pL, PrintTo_cell, List.take_append_of_le_length hk2]
      · rw [PrintTo_make, pR, PrintTo_cell, List.drop_append_of_le_length hk2]
    · obtain ⟨L, R, e, oL, oR, pL, pR⟩ := ihr (k - Size l - 1) hr (by omega)
      have hk2 : (PrintTo l []).length ≤ k := by omega
      have hk3 : k - (PrintTo l []).length = (k - Size l - 1) + 1 := by omega
      refine ⟨make d p l L, R, ?_, SizeOk_make _ _ _ _ hl oL, oR, ?_, ?_⟩
      · rw [Split_cell, if_neg h0, if_neg h1, if_neg h2, e]; rfl
      · rw [PrintTo_make, pL, PrintTo_cell, List.take_append_eq_append_take,
          List.take_of_length_le hk2, hk3, List.take_succ_cons]
      · rw [pR, PrintTo_cell, List.drop_append_eq_append_drop,
          List.drop_of_length_le hk2, hk3]
        simp

end Node

/-! ## History bookkeeping -/

theorem getElem?_take_append_singleton {α : Type} (v : List α) (n : Nat) (x : α) (i : Nat)
    (h : n ≤ v.length) :
    (v.take n ++ [x])[i]? = if i < n then v[i]? else if i = n then some x else none := by
  have hl : (v.take n).length = n := by simp [h]
  split_ifs with h1 h2
  · rw [List.getElem?_append_left (by omega), List.getElem?_take_of_lt h1]
  · subst h2
    rw [List.getElem?_append_right (by omega), hl]; simp
  · rw [List.getElem?_eq_none]
    simp only [List.length_append, hl, List.length_singleton]; omega

theorem resize_getElem? {α : Type} (v : List α) (n : Nat) (d : α) (h : n < v.length) :
    (resize v (n + 2) d)[n]? = v[n]? := by
  unfold resize
  rw [List.getElem?_append_left (by simp; omega), List.getElem?_take_of_lt (by omega)]

theorem assign_resize {α : Type} (v : List α) (n : Nat) (d x : α) (h : n < v.length) :
    assign (resize v (n + 2) d) (n + 1) x = some (v.take (n + 1) ++ [x]) := by
  have hlen : (resize v (n + 2) d).length = n + 2 := by
    unfold resize; simp; omega
  unfold assign
  rw [if_pos (by omega)]
  congr 1
  apply List.ext_getElem?
  intro i
  rw [getElem?_take_append_singleton _ _ _ _ (by omega), List.getElem?_set]
  unfold resize
  by_cases h1 : i < n + 1
  · rw [if_pos h1, if_neg (by omega), List.getElem?_append_left (by simp; omega),
      List.getElem?_take_of_lt (by omega)]
  · rw [if_neg h1]
    by_cases h2 : i = n + 1
    · subst h2; simp; omega
    · rw [if_neg h2, if_neg (by omega), List.getElem?_eq_none]
      simp; omega

namespace Editor

theorem WellFormed.current {e : Editor} (h : WellFormed e) :
    ∃ r c, e.states_[e.pos_]? = some r ∧ e.cursors_[e.pos_]? = some c ∧
      SizeOk r ∧ c ≤ Size r := by
  have h1 := h.pos_lt
  have h2 := h.len_eq
  refine ⟨e.states_[e.pos_], e.cursors_[e.pos_], List.getElem?_eq_getElem _,
    List.getElem?_eq_getElem _, ?_⟩
  exact h.ok e.pos_ _ _ (List.getElem?_eq_getElem _) (List.getElem?_eq_getElem _)

theorem WellFormed_init : WellFormed init :=
  ⟨rfl, by decide, ⟨rfl, rfl⟩, by
    intro i r c hr hc
    cases i with
    | zero =>
      simp only [init, List.getElem?_cons_zero, Option.some.injEq] at hr hc
      subst hr; subst hc; exact ⟨trivial, Nat.le_refl _⟩
    | succ n => simp [init] at hr⟩

theorem WellFormed_push {e : Editor} (h : WellFormed e) (root : Node Char) (c : Nat)
    (hr : SizeOk root) (hc : c ≤ Size root) : WellFormed (e.push root c) := by
  have h1 := h.pos_lt
  have h2 := h.len_eq
  refine ⟨?_, ?_, ⟨?_, ?_⟩, ?_⟩
  · simp [push]; omega
  · simp [push]; omega
  · simp only [push]
    rw [getElem?_take_append_singleton _ _ _ _ (by omega), if_pos (by omega)]
    exact h.first.1
  · simp only [push]
    rw [getElem?_take_append_singleton _ _ _ _ (by omega), if_pos (by omega)]
    exact h.first.2
  · intro i r' c' hr' hc'
    simp only [push] at hr' hc'
    rw [getElem?_take_append_singleton _ _ _ _ (by omega)] at hr' hc'
    by_cases hi : i < e.pos_ + 1
    · rw [if_pos hi] at hr' hc'
      exact h.ok i r' c' hr' hc'
    · rw [if_neg hi] at hr' hc'
      by_cases hi2 : i = e.pos_ + 1
      · rw [if_pos hi2] at hr' hc'
        cases hr'; cases hc'
        exact ⟨hr, hc⟩
      · rw [if_neg hi2] at hr'
        cases hr'


theorem TypeSymbol_eq {e : Editor} {r : Node Char} {c : Nat} (hp : e.pos_ < e.states_.length)
    (hl : e.states_.length = e.cursors_.length)
    (hr : e.states_[e.pos_]? = some r) (hc : e.cursors_[e.pos_]? = some c)
    (symbol : Char) (priority : Nat) :
    e.TypeSymbol symbol priority =
      (Split r c).bind (fun x =>
        some (e.push (Merge x.1 (Merge (leaf symbol priority) x.2)) (c + 1))) := by
  unfold TypeSymbol
  simp only [bind, resize_getElem? _ _ _ hp, resize_getElem? _ _ _ (hl ▸ hp), hr, hc,
    Option.some_bind, assign_resize _ _ _ _ hp, assign_resize _ _ _ _ (hl ▸ hp)]
  cases Split r c <;> rfl

theorem ShiftLeft_eq {e : Editor} {r : Node Char} {c : Nat} (hp : e.pos_ < e.states_.length)
    (hl : e.states_.length = e.cursors_.length)
    (hr : e.states_[e.pos_]? = some r) (hc : e.cursors_[e.pos_]? = some c) :
    e.ShiftLeft = if Size r = 0 then some e else some (e.push r (max c 1 - 1)) := by
  unfold ShiftLeft
  simp only [bind, resize_getElem? _ _ _ hp, resize_getElem? _ _ _ (hl ▸ hp), hr, hc,
    Option.some_bind, assign_resize _ _ _ _ hp, assign_resize _ _ _ _ (hl ▸ hp)]
  split_ifs <;> rfl

theorem ShiftRight_eq {e : Editor} {r : Node Char} {c : Nat} (hp : e.pos_ < e.states_.length)
    (hl : e.states_.length = e.cursors_.length)
    (hr : e.states_[e.pos_]? = some r) (hc : e.cursors_[e.pos_]? = some c) :
    e.ShiftRight = if Size r = c then some e else some (e.push r (c + 1)) := by
  unfold ShiftRight
  simp only [bind, resize_getElem? _ _ _ hp, resize_getElem? _ _ _ (hl ▸ hp), hr, hc,
    Option.some_bind, assign_resize _ _ _ _ hp, assign_resize _ _ _ _ (hl ▸ hp)]
  split_ifs <;> rfl

theorem Backspace_eq {e : Editor} {r : Node Char} {c : Nat} (hp : e.pos_ < e.states_.length)
    (hl : e.states_.length = e.cursors_.length)
    (hr : e.states_[e.pos_]? = some r) (hc : e.cursors_[e.pos_]? = some c) :
    e.Backspace =
      if c = 0 then some (e.push r 0)
      else (Split r (c - 1)).bind (fun x =>
        (Split x.2 1).bind (fun y => some (e.push (Merge x.1 y.2) (c - 1)))) := by
  unfold Backspace
  simp only [bind, resize_getElem? _ _ _ hp, resize_getElem? _ _ _ (hl ▸ hp), hr, hc,
    Option.some_bind, assign_resize _ _ _ _ hp, assign_resize _ _ _ _ (hl ▸ hp)]
  split_ifs
  · rfl
  · cases Split r (c - 1) with
    | none => rfl
    | some x =>
      simp only [Option.some_bind]
      cases Split x.2 1 <;> rfl


theorem push_pos (e : Editor) (r : Node Char) (c : Nat) : (e.push r c).pos_ = e.pos_ + 1 := rfl

theorem push_states_length {e : Editor} (hp : e.pos_ < e.states_.length) (r : Node Char)
    (c : Nat) : (e.push r c).states_.length = e.pos_ + 2 := by
  simp [push]; omega

theorem push_states_getElem? {e : Editor} (hp : e.pos_ < e.states_.length) (r : Node Char)
    (c : Nat) (i : Nat) :
    (e.push r c).states_[i]? =
      if i < e.pos_ + 1 then e.states_[i]? else if i = e.pos_ + 1 then some r else none :=
  getElem?_take_append_singleton _ _ _ _ (by omega)

theorem push_cursors_getElem? {e : Editor} (hp : e.pos_ < e.cursors_.length) (r : Node Char)
    (c : Nat) (i : Nat) :
    (e.push r c).cursors_[i]? =
      if i < e.pos_ + 1 then e.cursors_[i]? else if i = e.pos_ + 1 then some c else none :=
  getElem?_take_append_singleton _ _ _ _ (by omega)

theorem push_GetText {e : Editor} (hp : e.pos_ < e.states_.length) (r : Node Char) (c : Nat) :
    (e.push r c).GetText = some (String.mk (PrintTo r [])) := by
  unfold GetText
  rw [push_states_getElem? hp, push_pos, if_neg (by omega), if_pos rfl]
  rfl

theorem push_cursor {e : Editor} (hp : e.pos_ < e.cursors_.length) (r : Node Char) (c : Nat) :
    (e.push r c).cursor = some c := by
  unfold cursor
  rw [push_cursors_getElem? hp, push_pos, if_neg (by omega), if_pos rfl]

theorem push_Undo_GetText {e : Editor} (hp : e.pos_ < e.states_.length) (r : Node Char)
    (c : Nat) : (e.push r c).Undo.GetText = e.GetText := by
  unfold Undo GetText
  rw [if_pos (by rw [push_pos]; omega)]
  simp only [push_pos, Nat.add_sub_cancel]
  rw [push_states_getElem? hp, if_pos (by omega)]

theorem push_Undo_cursor {e : Editor} (hp : e.pos_ < e.cursors_.length) (r : Node Char)
    (c : Nat) : (e.push r c).Undo.cursor = e.cursor := by
  unfold Undo cursor
  rw [if_pos (by rw [push_pos]; omega)]
  simp only [push_pos, Nat.add_sub_cancel]
  rw [push_cursors_getElem? hp, if_pos (by omega)]

theorem push_Undo_Redo {e : Editor} (hp : e.pos_ < e.states_.length) (r : Node Char)
    (c : Nat) : (e.push r c).Undo.Redo = e.push r c := by
  have hlen := push_states_length hp r c
  unfold Undo
  rw [if_pos (by rw [push_pos]; omega)]
  unfold Redo
  simp only [push_pos, Nat.add_sub_cancel, hlen]
  rw [if_pos (by omega)]
  rfl

theorem push_Redo {e : Editor} (hp : e.pos_ < e.states_.length) (r : Node Char)
    (c : Nat) : (e.push r c).Redo = e.push r c := by
  have hlen := push_states_length hp r c
  unfold Redo
  rw [if_neg (by rw [push_pos, hlen]; omega)]

theorem TypeSymbol_spec {e : Editor} (h : WellFormed e) {r : Node Char} {c : Nat}
    (hr : e.states_[e.pos_]? = some r) (hc : e.cursors_[e.pos_]? = some c)
    (symbol : Char) (priority : Nat) :
    ∃ r', e.TypeSymbol symbol priority = some (e.push r' (c + 1)) ∧ SizeOk r' ∧
      PrintTo r' [] = (PrintTo r []).take c ++ symbol :: (PrintTo r []).drop c := by
  obtain ⟨hok, hle⟩ := h.ok _ _ _ hr hc
  obtain ⟨b, a, hs, hb, ha, pb, pa⟩ := Split_spec r c hok hle
  refine ⟨Merge b (Merge (leaf symbol priority) a), ?_, ?_, ?_⟩
  · rw [TypeSymbol_eq h.pos_lt h.len_eq hr hc, hs]; rfl
  · exact (Merge_SizeOk _ _ hb (Merge_SizeOk _ _ (SizeOk_leaf _ _) ha).1).1
  · rw [Merge_print, Merge_print, PrintTo_leaf, pb, pa]; rfl

theorem Backspace_spec {e : Editor} (h : WellFormed e) {r : Node Char} {c : Nat}
    (hr : e.states_[e.pos_]? = some r) (hc : e.cursors_[e.pos_]? = some c) :
    ∃ r', e.Backspace = some (e.push r' (c - 1)) ∧ SizeOk r' ∧ (c = 0 → r' = r) ∧
      PrintTo r' [] = (PrintTo r []).take (c - 1) ++ (PrintTo r []).drop c := by
  obtain ⟨hok, hle⟩ := h.ok _ _ _ hr hc
  by_cases h0 : c = 0
  · subst h0
    refine ⟨r, ?_, hok, fun _ => rfl, by simp⟩
    rw [Backspace_eq h.pos_lt h.len_eq hr hc, if_pos rfl]
  · have hlen := Size_eq_length r hok
    obtain ⟨b, ma, hs, hb, hma, pb, pma⟩ := Split_spec r (c - 1) hok (by omega)
    have hmalen := Size_eq_length ma hma
    have h1 : 1 ≤ Size ma := by
      rw [hmalen, pma, List.length_drop]; omega
    obtain ⟨m, a, hs2, _, ha, _, pa⟩ := Split_spec ma 1 hma h1
    refine ⟨Merge b a, ?_, (Merge_SizeOk _ _ hb ha).1, fun h => absurd h h0, ?_⟩
    · rw [Backspace_eq h.pos_lt h.len_eq hr hc, if_neg h0, hs]
      simp only [Option.some_bind, hs2]
    · rw [Merge_print, pb, pa, pma, List.drop_drop]
      congr 2; omega

theorem WellFormed_step {e : Editor} (h : WellFormed e) (op : Op) :
    ∃ e', e.step op = some e' ∧ WellFormed e' := by
  obtain ⟨r, c, hr, hc, hok, hle⟩ := h.current
  have hlen := Size_eq_length r hok
  cases op with
  | type symbol priority =>
    obtain ⟨r', he, hok', hp⟩ := TypeSymbol_spec h hr hc symbol priority
    refine ⟨_, he, WellFormed_push h _ _ hok' ?_⟩
    rw [Size_eq_length r' hok', hp]
    simp; omega
  | shiftLeft =>
    simp only [step, ShiftLeft_eq h.pos_lt h.len_eq hr hc]
    split_ifs
    · exact ⟨e, rfl, h⟩
    · exact ⟨_, rfl, WellFormed_push h _ _ hok (by omega)⟩
  | shiftRight =>
    simp only [step, ShiftRight_eq h.pos_lt h.len_eq hr hc]
    split_ifs
    · exact ⟨e, rfl, h⟩
    · exact ⟨_, rfl, WellFormed_push h _ _ hok (by omega)⟩
  | backspace =>
    obtain ⟨r', he, hok', _, hp⟩ := Backspace_spec h hr hc
    refine ⟨_, he, WellFormed_push h _ _ hok' ?_⟩
    rw [Size_eq_length r' hok', hp]
    simp; omega
  | undo =>
    refine ⟨_, rfl, ?_⟩
    unfold Undo
    split_ifs
    · exact ⟨h.len_eq, Nat.lt_of_le_of_lt (Nat.sub_le _ _) h.pos_lt, h.first, h.ok⟩
    · exact h
  | redo =>
    refine ⟨_, rfl, ?_⟩
    unfold Redo
    split_ifs with h1
    · exact ⟨h.len_eq, h1, h.first, h.ok⟩
    · exact h

theorem WellFormed_run {e e' : Editor} (h : WellFormed e) (ops : List Op)
    (hrun : e.run ops = some e') : WellFormed e' := by
  induction ops generalizing e with
  | nil => cases hrun; exact h
  | cons op ops ih =>
    obtain ⟨e1, h1, hw⟩ := WellFormed_step h op
    simp only [run, h1, Option.some_bind] at hrun
    exact ih hw hrun

theorem Reachable.wellFormed {e : Editor} (h : e.Reachable) : WellFormed e := by
  obtain ⟨ops, hops⟩ := h
  exact WellFormed_run WellFormed_init ops hops

theorem run_append (e : Editor) (ops1 ops2 : List Op) :
    e.run (ops1 ++ ops2) = (e.run ops1).bind (fun e1 => e1.run ops2) := by
  induction ops1 generalizing e with
  | nil => rfl
  | cons op ops ih =>
    simp only [List.cons_append, run]
    cases e.step op with
    | none => rfl
    | some e1 => simp only [Option.some_bind]; exact ih e1

theorem Reachable.step {e e' : Editor} (h : e.Reachable) (op : Op)
    (hs : e.step op = some e') : e'.Reachable := by
  obtain ⟨ops, hops⟩ := h
  refine ⟨ops ++ [op], ?_⟩
  rw [run_append, hops]
  simp [run, hs]

theorem Reachable_init : init.Reachable := ⟨[], rfl⟩

end Editor

/-! ## What each call does to the current text and cursor -/

namespace Editor

theorem WellFormed.view {e : Editor} (h : WellFormed e) :
    ∃ r c, e.states_[e.pos_]? = some r ∧ e.cursors_[e.pos_]? = some c ∧ SizeOk r ∧
      c ≤ (PrintTo r []).length ∧ e.GetText = some (String.mk (PrintTo r [])) ∧
      e.cursor = some c := by
  obtain ⟨r, c, hr, hc, hok, hle⟩ := h.current
  refine ⟨r, c, hr, hc, hok, Size_eq_length r hok ▸ hle, ?_, hc⟩
  unfold GetText
  rw [hr]; rfl

theorem WellFormed.root_of_text {e : Editor} (h : WellFormed e) {t : List Char} {c : Nat}
    (ht : e.GetText = some (String.mk t)) (hc : e.cursor = some c) :
    ∃ r, e.states_[e.pos_]? = some r ∧ e.cursors_[e.pos_]? = some c ∧ SizeOk r ∧
      PrintTo r [] = t ∧ c ≤ t.length := by
  obtain ⟨r, c', hr, hc', hok, hle, hg, hcur⟩ := h.view
  rw [hg] at ht
  rw [hcur] at hc
  have ht := congrArg String.data (Option.some.inj ht)
  have hc := Option.some.inj hc
  simp only at ht
  subst ht; subst hc
  exact ⟨r, hr, hc', hok, rfl, hle⟩

theorem type_view {e : Editor} (h : WellFormed e) {t : List Char} {c : Nat}
    (ht : e.GetText = some (String.mk t)) (hc : e.cursor = some c)
    (symbol : Char) (priority : Nat) :
    ∃ e', e.TypeSymbol symbol priority = some e' ∧ WellFormed e' ∧
      e'.GetText = some (String.mk (t.take c ++ symbol :: t.drop c)) ∧
      e'.cursor = some (c + 1) ∧ e'.pos_ = e.pos_ + 1 := by
  obtain ⟨r, hr, hc', hok, hp, hle⟩ := h.root_of_text ht hc
  obtain ⟨r', he, hok', hp'⟩ := TypeSymbol_spec h hr hc' symbol priority
  refine ⟨_, he, WellFormed_push h _ _ hok' ?_, ?_, push_cursor (h.len_eq ▸ h.pos_lt) _ _, rfl⟩
  · rw [Size_eq_length r' hok', hp', hp]
    simp; omega
  · rw [push_GetText h.pos_lt, hp', hp]

theorem backspace_view {e : Editor} (h : WellFormed e) {t : List Char} {c : Nat}
    (ht : e.GetText = some (String.mk t)) (hc : e.cursor = some c) :
    ∃ e', e.Backspace = some e' ∧ WellFormed e' ∧
      e'.GetText = some (String.mk (t.take (c - 1) ++ t.drop c)) ∧
      e'.cursor = some (c - 1) ∧ e'.pos_ = e.pos_ + 1 ∧
      e'.states_.length = e.pos_ + 2 ∧ e'.cursors_.length = e.pos_ + 2 := by
  obtain ⟨r, hr, hc', hok, hp, hle⟩ := h.root_of_text ht hc
  obtain ⟨r', he, hok', _, hp'⟩ := Backspace_spec h hr hc'
  have hl := push_states_length h.pos_lt r' (c - 1)
  have hw := WellFormed_push h r' (c - 1) hok' (by
    rw [Size_eq_length r' hok', hp', hp]
    simp; omega)
  refine ⟨_, he, hw, ?_, push_cursor (h.len_eq ▸ h.pos_lt) _ _, rfl, hl, hw.len_eq ▸ hl⟩
  rw [push_GetText h.pos_lt, hp', hp]

theorem shiftLeft_view {e : Editor} (h : WellFormed e) {t : List Char} {c : Nat}
    (ht : e.GetText = some (String.mk t)) (hc : e.cursor = some c) (hne : t ≠ []) :
    ∃ e', e.ShiftLeft = some e' ∧ WellFormed e' ∧
      e'.GetText = some (String.mk t) ∧ e'.cursor = some (c - 1) ∧ e'.pos_ = e.pos_ + 1 := by
  obtain ⟨r, hr, hc', hok, hp, hle⟩ := h.root_of_text ht hc
  have hsz : Size r ≠ 0 := by
    rw [Size_eq_length r hok, hp]
    exact fun h0 => hne (List.length_eq_zero.mp h0)
  have hsz2 : c - 1 ≤ Size r := by
    rw [Size_eq_length r hok, hp]; omega
  have hmax : max c 1 - 1 = c - 1 := by omega
  refine ⟨e.push r (c - 1), ?_, WellFormed_push h _ _ hok hsz2, ?_,
    push_cursor (h.len_eq ▸ h.pos_lt) _ _, rfl⟩
  · rw [ShiftLeft_eq h.pos_lt h.len_eq hr hc', if_neg hsz, hmax]
  · rw [push_GetText h.pos_lt, hp]

end Editor

/-! ## Calls that store a version and calls that their guard turns into a no-op -/

namespace Editor

theorem push_Undo_pos (e : Editor) (r : Node Char) (c : Nat) :
    (e.push r c).Undo.pos_ = e.pos_ := by
  unfold Undo
  rw [if_pos (by rw [push_pos]; omega)]
  simp [push_pos]

theorem step_mutating {e : Editor} (h : WellFormed e) {op : Op} (hm : op.mutating = true) :
    ∃ e1, e.step op = some e1 ∧ WellFormed e1 ∧
      ((e.stores op = true ∧ ∃ r c, e1 = e.push r c) ∨ (e.stores op = false ∧ e1 = e)) := by
  obtain ⟨r, c, hr, hc, hok, hle⟩ := h.current
  cases op with
  | type symbol priority =>
    obtain ⟨e1, h1, hw⟩ := WellFormed_step h (Op.type symbol priority)
    obtain ⟨r', he, _⟩ := TypeSymbol_spec h hr hc symbol priority
    refine ⟨e1, h1, hw, Or.inl ⟨rfl, r', c + 1, ?_⟩⟩
    simp only [step, he, Option.some.injEq] at h1
    exact h1.symm
  | backspace =>
    obtain ⟨e1, h1, hw⟩ := WellFormed_step h Op.backspace
    obtain ⟨r', he, _⟩ := Backspace_spec h hr hc
    refine ⟨e1, h1, hw, Or.inl ⟨rfl, r', c - 1, ?_⟩⟩
    simp only [step, he, Option.some.injEq] at h1
    exact h1.symm
  | shiftLeft =>
    obtain ⟨e1, h1, hw⟩ := WellFormed_step h Op.shiftLeft
    refine ⟨e1, h1, hw, ?_⟩
    simp only [step, ShiftLeft_eq h.pos_lt h.len_eq hr hc] at h1
    simp only [stores, hr]
    by_cases h0 : Size r = 0
    · rw [if_pos h0] at h1
      exact Or.inr ⟨by simp [h0], (Option.some.inj h1).symm⟩
    · rw [if_neg h0] at h1
      exact Or.inl ⟨by simp [h0], r, _, (Option.some.inj h1).symm⟩
  | shiftRight =>
    obtain ⟨e1, h1, hw⟩ := WellFormed_step h Op.shiftRight
    refine ⟨e1, h1, hw, ?_⟩
    simp only [step, ShiftRight_eq h.pos_lt h.len_eq hr hc] at h1
    simp only [stores, hr, hc]
    by_cases h0 : Size r = c
    · rw [if_pos h0] at h1
      exact Or.inr ⟨by simp [h0], (Option.some.inj h1).symm⟩
    · rw [if_neg h0] at h1
      exact Or.inl ⟨by simp [h0], r, _, (Option.some.inj h1).symm⟩
  | undo => cases hm
  | redo => cases hm

theorem WellFormed_Undo {e : Editor} (h : WellFormed e) : WellFormed e.Undo := by
  obtain ⟨e', h1, hw⟩ := WellFormed_step h Op.undo
  cases h1; exact hw

end Editor

/-! ## Claims -/


/-- C1: for every size-consistent tree `t` and every `k ≤ Size t`, `Split t k`
returns a pair `(L, R)`; the in-order sequence of `L` is the first `k` elements
of the in-order sequence of `t`, that of `R` is the remaining `Size t - k`
elements, and `Size L = k`. -/
theorem C1_split_by_rank {T : Type} (t : Node T) (k : Nat) (ht : SizeOk t) (hk : k ≤ Size t) :
    ∃ L R, Split t k = some (L, R) ∧
      PrintTo L [] = (PrintTo t []).take k ∧
      PrintTo R [] = (PrintTo t []).drop k ∧
      (PrintTo R []).length = Size t - k ∧
      Size L = k := by
  obtain ⟨L, R, hs, hL, _, pL, pR⟩ := Split_spec t k ht hk
  have hlen := Size_eq_length t ht
  refine ⟨L, R, hs, pL, pR, ?_, ?_⟩
  · rw [pR, List.length_drop, hlen]
  · rw [Size_eq_length L hL, pL, List.length_take]; omega

/-- C1 at the three-node tree `a b c` and rank 2. -/
theorem C1_split_by_rank_witness :
    SizeOk sampleTree ∧ 2 ≤ Size sampleTree ∧
    ∃ L R, Split sampleTree 2 = some (L, R) ∧
      PrintTo L [] = (PrintTo sampleTree []).take 2 ∧
      PrintTo R [] = (PrintTo sampleTree []).drop 2 ∧
      (PrintTo R []).length = Size sampleTree - 2 ∧
      Size L = 2 :=
  ⟨by decide, by decide, C1_split_by_rank sampleTree 2 (by decide) (by decide)⟩

/-- C2: for all trees `l` and `r`, either possibly `nullptr` and with arbitrary
priorities (equal ones included), the in-order sequence of `Merge l r` is the
in-order sequence of `l` followed by that of `r`. -/
theorem C2_merge_is_concatenation {T : Type} (l r : Node T) :
    PrintTo (Merge l r) [] = PrintTo l [] ++ PrintTo r [] :=
  Merge_print l r


/-- C3: in every reachable state, with current text `t` and cursor `c`, and for
every character `ch` and every priority drawn for the new node, `Type(ch)`
returns, the text is then `t[0..c)`, `ch`, `t[c..)`, the cursor is `c + 1` and
`pos_` has advanced by one.  From the empty editor, typing `a`, `b`, `c` gives
`"abc"` with cursor 3, and `ShiftLeft`, `ShiftLeft`, `Type('X')` then give
`"aXbc"`, whatever the priorities. -/
theorem C3_type_inserts_at_cursor :
    (∀ e : Editor, e.Reachable → ∀ (ch : Char) (priority : Nat),
      ∃ t c e', e.GetText = some (String.mk t) ∧ e.cursor = some c ∧ c ≤ t.length ∧
        e.TypeSymbol ch priority = some e' ∧
        e'.GetText = some (String.mk (t.take c ++ ch :: t.drop c)) ∧
        e'.cursor = some (c + 1) ∧
        e'.pos_ = e.pos_ + 1) ∧
    (∀ p1 p2 p3 p4 : Nat, ∃ e3 e6,
      Editor.init.run [Op.type 'a' p1, Op.type 'b' p2, Op.type 'c' p3] = some e3 ∧
      e3.GetText = some "abc" ∧ e3.cursor = some 3 ∧
      e3.run [Op.shiftLeft, Op.shiftLeft, Op.type 'X' p4] = some e6 ∧
      e6.GetText = some "aXbc") := by
  constructor
  · intro e he ch priority
    have h := he.wellFormed
    obtain ⟨r, c, _, _, _, hle, hg, hcur⟩ := h.view
    obtain ⟨e', h1, _, h2, h3, h4⟩ := Editor.type_view h hg hcur ch priority
    exact ⟨_, c, e', hg, hcur, hle, h1, h2, h3, h4⟩
  · intro p1 p2 p3 p4
    have g0 : Editor.init.GetText = some (String.mk []) := rfl
    have c0 : Editor.init.cursor = some 0 := rfl
    obtain ⟨e1, s1, w1, g1, c1, _⟩ := Editor.type_view Editor.WellFormed_init g0 c0 'a' p1
    obtain ⟨e2, s2, w2, g2, c2, _⟩ := Editor.type_view w1 g1 c1 'b' p2
    obtain ⟨e3, s3, w3, g3, c3, _⟩ := Editor.type_view w2 g2 c2 'c' p3
    obtain ⟨e4, s4, w4, g4, c4, _⟩ := Editor.shiftLeft_view w3 g3 c3 (by simp)
    obtain ⟨e5, s5, w5, g5, c5, _⟩ := Editor.shiftLeft_view w4 g4 c4 (by simp)
    obtain ⟨e6, s6, w6, g6, c6, _⟩ := Editor.type_view w5 g5 c5 'X' p4
    refine ⟨e3, e6, ?_, g3, c3, ?_, g6⟩
    · simp only [Editor.run, Editor.step, s1, s2, s3, Option.some_bind]
    · simp only [Editor.run, Editor.step, s4, s5, s6, Option.some_bind]

/-- C3 at the state reached by typing `a` (priority 5): typing `b` there. -/
theorem C3_type_inserts_at_cursor_witness :
    Editor.Reachable typedA ∧
    ∃ t c e', Editor.GetText typedA = some (String.mk t) ∧
      Editor.cursor typedA = some c ∧ c ≤ t.length ∧
      Editor.TypeSymbol typedA 'b' 3 = some e' ∧
      e'.GetText = some (String.mk (t.take c ++ 'b' :: t.drop c)) ∧
      e'.cursor = some (c + 1) ∧
      e'.pos_ = 1 + 1 :=
  ⟨⟨[Op.type 'a' 5], by decide⟩,
    C3_type_inserts_at_cursor.1 _ ⟨[Op.type 'a' 5], by decide⟩ 'b' 3⟩

/-- C4: in every reachable state, with current text `t` and cursor `c`,
`Backspace()` returns, appends a version (the history is then `pos_ + 2` long)
and advances `pos_` by one; if `c > 0` the text is `t` without the element at
index `c - 1` and the cursor is `c - 1`; if `c = 0` the text is unchanged and
the cursor is 0.  From the empty editor, typing `a`, `b` and one `Backspace`
give `"a"` with cursor 1, one more gives `""` with cursor 0, and a further one on
the empty buffer gives `""` with cursor 0 and still advances `pos_`. -/
theorem C4_backspace_deletes_before_cursor :
    (∀ e : Editor, e.Reachable →
      ∃ t c e', e.GetText = some (String.mk t) ∧ e.cursor = some c ∧
        e.Backspace = some e' ∧
        e'.pos_ = e.pos_ + 1 ∧
        e'.states_.length = e.pos_ + 2 ∧ e'.cursors_.length = e.pos_ + 2 ∧
        (0 < c → e'.GetText = some (String.mk (t.eraseIdx (c - 1))) ∧
          e'.cursor = some (c - 1)) ∧
        (c = 0 → e'.GetText = some (String.mk t) ∧ e'.cursor = some 0)) ∧
    (∀ p1 p2 : Nat, ∃ e3 e4 e5,
      Editor.init.run [Op.type 'a' p1, Op.type 'b' p2, Op.backspace] = some e3 ∧
      e3.GetText = some "a" ∧ e3.cursor = some 1 ∧
      e3.Backspace = some e4 ∧ e4.GetText = some "" ∧ e4.cursor = some 0 ∧
      e4.Backspace = some e5 ∧ e5.GetText = some "" ∧ e5.cursor = some 0 ∧
      e5.pos_ = e4.pos_ + 1) := by
  constructor
  · intro e he
    have h := he.wellFormed
    obtain ⟨r, c, _, _, _, hle, hg, hcur⟩ := h.view
    obtain ⟨e', h1, _, h2, h3, h4, h5, h6⟩ := Editor.backspace_view h hg hcur
    refine ⟨_, c, e', hg, hcur, h1, h4, h5, h6, ?_, ?_⟩
    · intro hc
      have hc1 : c - 1 + 1 = c := by omega
      rw [List.eraseIdx_eq_take_drop_succ, hc1]
      exact ⟨h2, h3⟩
    · intro hc
      subst hc
      exact ⟨by simpa using h2, h3⟩
  · intro p1 p2
    have g0 : Editor.init.GetText = some (String.mk []) := rfl
    have c0 : Editor.init.cursor = some 0 := rfl
    obtain ⟨e1, s1, w1, g1, c1, _⟩ := Editor.type_view Editor.WellFormed_init g0 c0 'a' p1
    obtain ⟨e2, s2, w2, g2, c2, _⟩ := Editor.type_view w1 g1 c1 'b' p2
    obtain ⟨e3, s3, w3, g3, c3, _⟩ := Editor.backspace_view w2 g2 c2
    obtain ⟨e4, s4, w4, g4, c4, _⟩ := Editor.backspace_view w3 g3 c3
    obtain ⟨e5, s5, w5, g5, c5, p5, _⟩ := Editor.backspace_view w4 g4 c4
    refine ⟨e3, e4, e5, ?_, g3, c3, s4, g4, c4, s5, g5, c5, p5⟩
    simp only [Editor.run, Editor.step, s1, s2, s3, Option.some_bind]

/-- C4 at the state reached by typing `a` (priority 5). -/
theorem C4_backspace_deletes_before_cursor_witness :
    Editor.Reachable typedA ∧
    ∃ t c e', typedA.GetText = some (String.mk t) ∧ typedA.cursor = some c ∧
      typedA.Backspace = some e' ∧
      e'.pos_ = typedA.pos_ + 1 ∧
      e'.states_.length = typedA.pos_ + 2 ∧ e'.cursors_.length = typedA.pos_ + 2 ∧
      (0 < c → e'.GetText = some (String.mk (t.eraseIdx (c - 1))) ∧
        e'.cursor = some (c - 1)) ∧
      (c = 0 → e'.GetText = some (String.mk t) ∧ e'.cursor = some 0) :=
  ⟨⟨[Op.type 'a' 5], by decide⟩,
    C4_backspace_deletes_before_cursor.1 typedA ⟨[Op.type 'a' 5], by decide⟩⟩

/-- C5 as stated fails: after typing `a` the cursor is at the end of the
buffer, so `ShiftRight()` returns at its guard and stores nothing; the `Undo()`
that follows moves from version 1 to version 0, and the editor shows `""` with
cursor 0 instead of `"a"` with cursor 1. -/
theorem C5_undo_after_guarded_shift_counterexample :
    (Editor.init.run [Op.type 'a' 5] = some typedA ∧
      Op.shiftRight.mutating = true ∧
      typedA.step Op.shiftRight = some typedA ∧
      typedA.GetText = some "a" ∧ typedA.cursor = some 1 ∧
      typedA.Undo.GetText = some "" ∧ typedA.Undo.cursor = some 0) ∧
    ¬ (∀ e : Editor, e.Reachable → ∀ op : Op, op.mutating = true →
        ∀ e1, e.step op = some e1 →
          e1.Undo.GetText = e.GetText ∧ e1.Undo.cursor = e.cursor) := by
  refine ⟨by decide, fun h => ?_⟩
  have h1 := h typedA ⟨[Op.type 'a' 5], by decide⟩ Op.shiftRight rfl typedA (by decide)
  revert h1
  decide

/-- C5, amended: in every reachable state each of `Type(ch)`, `ShiftLeft()`,
`ShiftRight()`, `Backspace()` returns.  If the call stores a version (`Type`,
`Backspace`, `ShiftLeft` on a non-empty buffer, `ShiftRight` with the cursor
before the end), then `Undo()` after it leaves the editor at the pointer, text
and cursor it had before the call.  If the guard of the shift returns early,
the state is unchanged by the call and the `Undo()` after it moves the pointer
from `pos_` to `pos_ - 1`. -/
theorem C5_undo_restores_prior_state (e : Editor) (he : e.Reachable) (op : Op)
    (hm : op.mutating = true) :
    ∃ e1, e.step op = some e1 ∧
      (e.stores op = true →
        e1.pos_ = e.pos_ + 1 ∧ e1.Undo.pos_ = e.pos_ ∧
        e1.Undo.GetText = e.GetText ∧ e1.Undo.cursor = e.cursor) ∧
      (e.stores op = false → e1 = e ∧ e1.Undo.pos_ = e.pos_ - 1) := by
  have h := he.wellFormed
  obtain ⟨e1, h1, _, hcase⟩ := Editor.step_mutating h hm
  refine ⟨e1, h1, ?_, ?_⟩
  · intro hs
    rcases hcase with ⟨_, r, c, rfl⟩ | ⟨hf, _⟩
    · exact ⟨rfl, Editor.push_Undo_pos e r c, Editor.push_Undo_GetText h.pos_lt r c,
        Editor.push_Undo_cursor (h.len_eq ▸ h.pos_lt) r c⟩
    · rw [hs] at hf; cases hf
  · intro hs
    rcases hcase with ⟨ht, _⟩ | ⟨_, rfl⟩
    · rw [hs] at ht; cases ht
    · refine ⟨rfl, ?_⟩
      unfold Editor.Undo
      split_ifs with h0
      · rfl
      · have : e1.pos_ = 0 := by simpa using h0
        rw [this]

/-- C5 (amended) at the state reached by typing `a`, for `Backspace()`. -/
theorem C5_undo_restores_prior_state_witness :
    Editor.Reachable typedA ∧ Op.backspace.mutating = true ∧
    ∃ e1, typedA.step Op.backspace = some e1 ∧
      (typedA.stores Op.backspace = true →
        e1.pos_ = typedA.pos_ + 1 ∧ e1.Undo.pos_ = typedA.pos_ ∧
        e1.Undo.GetText = typedA.GetText ∧ e1.Undo.cursor = typedA.cursor) ∧
      (typedA.stores Op.backspace = false → e1 = typedA ∧ e1.Undo.pos_ = typedA.pos_ - 1) :=
  ⟨⟨[Op.type 'a' 5], by decide⟩, rfl,
    C5_undo_restores_prior_state typedA ⟨[Op.type 'a' 5], by decide⟩ Op.backspace rfl⟩

/-- C6 as stated fails: type `a` and undo it, which leaves the pointer at
version 0 with version 1 still stored.  `ShiftLeft()` on the empty buffer returns
at its guard, `Undo()` at `pos_ = 0` does nothing, and `Redo()` moves to version
1: the editor shows `"a"` with cursor 1, not the `""` with cursor 0 it had
right after `ShiftLeft()`. -/
theorem C6_redo_after_guarded_shift_counterexample :
    (Editor.init.run [Op.type 'a' 5, Op.undo] = some undoneA ∧
      Op.shiftLeft.mutating = true ∧
      undoneA.step Op.shiftLeft = some undoneA ∧
      undoneA.GetText = some "" ∧ undoneA.cursor = some 0 ∧
      undoneA.Undo.Redo.GetText = some "a" ∧ undoneA.Undo.Redo.cursor = some 1) ∧
    ¬ (∀ e : Editor, e.Reachable → ∀ op : Op, op.mutating = true →
        ∀ e1, e.step op = some e1 →
          e1.Undo.Redo.GetText = e1.GetText ∧ e1.Undo.Redo.cursor = e1.cursor) := by
  refine ⟨by decide, fun h => ?_⟩
  have h1 := h undoneA ⟨[Op.type 'a' 5, Op.undo], by decide⟩ Op.shiftLeft rfl undoneA
    (by decide)
  revert h1
  decide

/-- C6, amended: in every reachable state and for each of `Type(ch)`,
`ShiftLeft()`, `ShiftRight()`, `Backspace()`, provided the call stores a version,
or `pos_ > 0`, or the history holds the initial version only: the call, then
`Undo()`, then `Redo()` leaves the editor in exactly the state it had right after
the call, so with the same text and cursor. -/
theorem C6_redo_restores_undone_state (e : Editor) (he : e.Reachable) (op : Op)
    (hm : op.mutating = true)
    (hc : e.stores op = true ∨ e.pos_ ≠ 0 ∨ e.states_.length = 1) :
    ∃ e1, e.step op = some e1 ∧ e1.Undo.Redo = e1 ∧
      e1.Undo.Redo.GetText = e1.GetText ∧ e1.Undo.Redo.cursor = e1.cursor := by
  have h := he.wellFormed
  obtain ⟨e1, h1, _, hcase⟩ := Editor.step_mutating h hm
  have key : e1.Undo.Redo = e1 := by
    rcases hcase with ⟨_, r, c, rfl⟩ | ⟨hf, rfl⟩
    · exact Editor.push_Undo_Redo h.pos_lt r c
    · have hp := h.pos_lt
      rcases hc with hs | hpos | hlen
      · rw [hs] at hf; cases hf
      · unfold Editor.Undo
        rw [if_pos hpos]
        unfold Editor.Redo
        have h2 : e1.pos_ - 1 + 1 = e1.pos_ := by omega
        simp only [h2]
        rw [if_pos hp]
      · have h0 : e1.pos_ = 0 := by omega
        unfold Editor.Undo
        rw [if_neg (by simp [h0])]
        unfold Editor.Redo
        rw [if_neg (by omega)]
  exact ⟨e1, h1, key, by rw [key], by rw [key]⟩

/-- C6 (amended) at the state reached by typing `a`, for `Backspace()`. -/
theorem C6_redo_restores_undone_state_witness :
    Editor.Reachable typedA ∧ Op.backspace.mutating = true ∧
    (typedA.stores Op.backspace = true ∨ typedA.pos_ ≠ 0 ∨ typedA.states_.length = 1) ∧
    ∃ e1, typedA.step Op.backspace = some e1 ∧ e1.Undo.Redo = e1 ∧
      e1.Undo.Redo.GetText = e1.GetText ∧ e1.Undo.Redo.cursor = e1.cursor :=
  ⟨⟨[Op.type 'a' 5], by decide⟩, rfl, Or.inl rfl,
    C6_redo_restores_undone_state typedA ⟨[Op.type 'a' 5], by decide⟩ Op.backspace rfl
      (Or.inl rfl)⟩

/-- C7 as stated fails: type `a`, type `b`, then `Undo()`, which leaves the
pointer at version 1 (`"a"`, cursor 1) with version 2 still stored.
`ShiftRight()` there returns at its guard (the cursor is at the end) and
truncates nothing, so `Redo()` moves the pointer to version 2 and the editor
shows `"ab"` with cursor 2. -/
theorem C7_redo_after_guarded_shift_counterexample :
    (Editor.init.run [Op.type 'a' 5, Op.type 'b' 3] = some undoneAB.Redo ∧
      undoneAB.Redo.Undo = undoneAB ∧
      Op.shiftRight.mutating = true ∧
      undoneAB.step Op.shiftRight = some undoneAB ∧
      undoneAB.pos_ = 1 ∧ undoneAB.GetText = some "a" ∧ undoneAB.cursor = some 1 ∧
      undoneAB.Redo.pos_ = 2 ∧ undoneAB.Redo.GetText = some "ab" ∧
      undoneAB.Redo.cursor = some 2) ∧
    ¬ (∀ e : Editor, e.Reachable → ∀ op : Op, op.mutating = true →
        ∀ e2, e.Undo.step op = some e2 →
          e2.Redo.pos_ = e2.pos_ ∧ e2.Redo.GetText = e2.GetText ∧
          e2.Redo.cursor = e2.cursor) := by
  refine ⟨by decide, fun h => ?_⟩
  have h1 := h undoneAB.Redo ⟨[Op.type 'a' 5, Op.type 'b' 3], by decide⟩ Op.shiftRight rfl
    undoneAB (by decide)
  revert h1
  decide

/-- C7, amended: in every reachable state, after `Undo()` followed by one of
`Type(ch)`, `ShiftLeft()`, `ShiftRight()`, `Backspace()` that stores a version
(`Type`, `Backspace`, `ShiftLeft` on a non-empty buffer, `ShiftRight` with the
cursor before the end), or when the history holds the initial version only, no
version is stored beyond the current one and `Redo()` leaves the whole state
unchanged, so the pointer, the text and the cursor. -/
theorem C7_branch_truncation (e : Editor) (he : e.Reachable) (op : Op)
    (hm : op.mutating = true)
    (hc : e.Undo.stores op = true ∨ e.states_.length = 1) :
    ∃ e2, e.Undo.step op = some e2 ∧
      e2.states_.length = e2.pos_ + 1 ∧
      e2.Redo = e2 ∧
      e2.Redo.pos_ = e2.pos_ ∧ e2.Redo.GetText = e2.GetText ∧
      e2.Redo.cursor = e2.cursor := by
  have h := Editor.WellFormed_Undo he.wellFormed
  obtain ⟨e2, h2, _, hcase⟩ := Editor.step_mutating h hm
  have hlen : e2.states_.length = e2.pos_ + 1 := by
    rcases hcase with ⟨_, r, c, rfl⟩ | ⟨hf, rfl⟩
    · rw [Editor.push_states_length h.pos_lt, Editor.push_pos]
    · rcases hc with hs | hl
      · rw [hs] at hf; cases hf
      · have hp := h.pos_lt
        have hl2 : e.Undo.states_.length = 1 := by
          unfold Editor.Undo; split_ifs <;> exact hl
        omega
  have key : e2.Redo = e2 := by
    unfold Editor.Redo
    rw [if_neg (by omega)]
  exact ⟨e2, h2, hlen, key, by rw [key], by rw [key], by rw [key]⟩

/-- C7 (amended) at the state reached by typing `a` and `b`: `Undo()`, then
`Backspace()`. -/
theorem C7_branch_truncation_witness :
    Editor.Reachable undoneAB.Redo ∧ Op.backspace.mutating = true ∧
    (undoneAB.Redo.Undo.stores Op.backspace = true ∨ undoneAB.Redo.states_.length = 1) ∧
    ∃ e2, undoneAB.Redo.Undo.step Op.backspace = some e2 ∧
      e2.states_.length = e2.pos_ + 1 ∧
      e2.Redo = e2 ∧
      e2.Redo.pos_ = e2.pos_ ∧ e2.Redo.GetText = e2.GetText ∧
      e2.Redo.cursor = e2.cursor :=
  ⟨⟨[Op.type 'a' 5, Op.type 'b' 3], by decide⟩, rfl, Or.inl rfl,
    C7_branch_truncation undoneAB.Redo ⟨[Op.type 'a' 5, Op.type 'b' 3], by decide⟩
      Op.backspace rfl (Or.inl rfl)⟩

/-- C8: in every reachable state, with current root `r` and cursor `c`: if
`Size r = 0`, `ShiftLeft()` leaves the whole state unchanged; otherwise it
stores a version at index `pos_ + 1`, the last one, with the same root, hence the
same text, and cursor `max(c - 1, 0)`, and advances `pos_` by one; so with
`c = 0` in a non-empty buffer a version with cursor 0 is still stored. -/
theorem C8_shift_left (e : Editor) (he : e.Reachable) :
    ∃ r c, e.states_[e.pos_]? = some r ∧ e.cursors_[e.pos_]? = some c ∧
      (Size r = 0 → e.ShiftLeft = some e) ∧
      (Size r ≠ 0 → ∃ e' c', e.ShiftLeft = some e' ∧
        e'.pos_ = e.pos_ + 1 ∧
        e'.states_.length = e.pos_ + 2 ∧ e'.cursors_.length = e.pos_ + 2 ∧
        e'.states_[e.pos_ + 1]? = some r ∧
        e'.cursors_[e.pos_ + 1]? = some c' ∧
        (c' : Int) = max ((c : Int) - 1) 0 ∧
        (c = 0 → c' = 0) ∧
        e'.GetText = e.GetText) := by
  have h := he.wellFormed
  obtain ⟨r, c, hr, hc, hok, hle⟩ := h.current
  have hp2 : e.pos_ < e.cursors_.length := h.len_eq ▸ h.pos_lt
  refine ⟨r, c, hr, hc, ?_, ?_⟩
  · intro h0
    rw [Editor.ShiftLeft_eq h.pos_lt h.len_eq hr hc, if_pos h0]
  · intro h0
    have hl := Editor.push_states_length h.pos_lt r (max c 1 - 1)
    have hw := Editor.WellFormed_push h r (max c 1 - 1) hok (by omega)
    refine ⟨e.push r (max c 1 - 1), max c 1 - 1, ?_, rfl, hl, hw.len_eq ▸ hl, ?_, ?_, ?_, ?_, ?_⟩
    · rw [Editor.ShiftLeft_eq h.pos_lt h.len_eq hr hc, if_neg h0]
    · rw [Editor.push_states_getElem? h.pos_lt, if_neg (by omega), if_pos rfl]
    · rw [Editor.push_cursors_getElem? hp2, if_neg (by omega), if_pos rfl]
    · omega
    · intro hc0; subst hc0; rfl
    · rw [Editor.push_GetText h.pos_lt]
      unfold Editor.GetText
      rw [hr]; rfl

/-- C8 at the state reached by typing `a`. -/
theorem C8_shift_left_witness :
    Editor.Reachable typedA ∧
    ∃ r c, typedA.states_[typedA.pos_]? = some r ∧ typedA.cursors_[typedA.pos_]? = some c ∧
      (Size r = 0 → typedA.ShiftLeft = some typedA) ∧
      (Size r ≠ 0 → ∃ e' c', typedA.ShiftLeft = some e' ∧
        e'.pos_ = typedA.pos_ + 1 ∧
        e'.states_.length = typedA.pos_ + 2 ∧ e'.cursors_.length = typedA.pos_ + 2 ∧
        e'.states_[typedA.pos_ + 1]? = some r ∧
        e'.cursors_[typedA.pos_ + 1]? = some c' ∧
        (c' : Int) = max ((c : Int) - 1) 0 ∧
        (c = 0 → c' = 0) ∧
        e'.GetText = typedA.GetText) :=
  ⟨⟨[Op.type 'a' 5], by decide⟩, C8_shift_left typedA ⟨[Op.type 'a' 5], by decide⟩⟩

/-- C9: in every reachable state, with current root `r` and cursor `c`: if
`c = Size r`, `ShiftRight()` leaves the whole state unchanged; otherwise it
stores a version at index `pos_ + 1`, the last one, with the same root, hence the
same text, and cursor `c + 1`, and advances `pos_` by one. -/
theorem C9_shift_right (e : Editor) (he : e.Reachable) :
    ∃ r c, e.states_[e.pos_]? = some r ∧ e.cursors_[e.pos_]? = some c ∧
      (c = Size r → e.ShiftRight = some e) ∧
      (c ≠ Size r → ∃ e', e.ShiftRight = some e' ∧
        e'.pos_ = e.pos_ + 1 ∧
        e'.states_.length = e.pos_ + 2 ∧ e'.cursors_.length = e.pos_ + 2 ∧
        e'.states_[e.pos_ + 1]? = some r ∧
        e'.cursors_[e.pos_ + 1]? = some (c + 1) ∧
        e'.GetText = e.GetText) := by
  have h := he.wellFormed
  obtain ⟨r, c, hr, hc, hok, hle⟩ := h.current
  have hp2 : e.pos_ < e.cursors_.length := h.len_eq ▸ h.pos_lt
  refine ⟨r, c, hr, hc, ?_, ?_⟩
  · intro h0
    rw [Editor.ShiftRight_eq h.pos_lt h.len_eq hr hc, if_pos h0.symm]
  · intro h0
    have hl := Editor.push_states_length h.pos_lt r (c + 1)
    have hw := Editor.WellFormed_push h r (c + 1) hok (by omega)
    refine ⟨e.push r (c + 1), ?_, rfl, hl, hw.len_eq ▸ hl, ?_, ?_, ?_⟩
    · rw [Editor.ShiftRight_eq h.pos_lt h.len_eq hr hc, if_neg (fun h1 => h0 h1.symm)]
    · rw [Editor.push_states_getElem? h.pos_lt, if_neg (by omega), if_pos rfl]
    · rw [Editor.push_cursors_getElem? hp2, if_neg (by omega), if_pos rfl]
    · rw [Editor.push_GetText h.pos_lt]
      unfold Editor.GetText
      rw [hr]; rfl

/-- C9 at the state reached by typing `a` and `ShiftLeft()`: the cursor 0 is
before the end of the one-character buffer, and `ShiftRight()` stores version 3
with the same root and cursor 1. -/
theorem C9_shift_right_witness :
    Editor.Reachable shiftedA ∧
    shiftedA.states_[shiftedA.pos_]? = some (leaf 'a' 5) ∧
    shiftedA.cursors_[shiftedA.pos_]? = some 0 ∧
    0 ≠ Size (leaf 'a' 5 : Node Char) ∧
    ∃ e', shiftedA.ShiftRight = some e' ∧
      e'.pos_ = 3 ∧ e'.states_.length = 4 ∧ e'.cursors_.length = 4 ∧
      e'.states_[3]? = some (leaf 'a' 5) ∧
      e'.cursors_[3]? = some 1 ∧
      e'.GetText = shiftedA.GetText := by
  obtain ⟨r, c, hr, hc, _, h2⟩ :=
    C9_shift_right shiftedA ⟨[Op.type 'a' 5, Op.shiftLeft], by decide⟩
  have hr' : r = leaf 'a' 5 := (Option.some.inj hr).symm
  have hc' : c = 0 := (Option.some.inj hc).symm
  subst hr'
  subst hc'
  exact ⟨⟨[Op.type 'a' 5, Op.shiftLeft], by decide⟩, rfl, rfl, by decide, h2 (by decide)⟩

/-- C10: in every editor state, `Undo()` leaves the state unchanged when
`pos_ = 0` and otherwise sets `pos_` to `pos_ - 1`; `Redo()` leaves the state
unchanged when no version is stored at `pos_ + 1` (so when `pos_ + 1` is the
history length) and otherwise sets `pos_` to `pos_ + 1`; in all four cases the
two stored sequences, and so their lengths, are unchanged. -/
theorem C10_undo_redo_move_pointer_only (e : Editor) :
    (e.pos_ = 0 → e.Undo = e) ∧
    (e.pos_ ≠ 0 → e.Undo.pos_ = e.pos_ - 1) ∧
    (e.states_[e.pos_ + 1]? = none → e.Redo = e) ∧
    (e.pos_ + 1 = e.states_.length → e.Redo = e) ∧
    (e.states_[e.pos_ + 1]? ≠ none → e.Redo.pos_ = e.pos_ + 1) ∧
    e.Undo.states_ = e.states_ ∧ e.Undo.cursors_ = e.cursors_ ∧
    e.Redo.states_ = e.states_ ∧ e.Redo.cursors_ = e.cursors_ ∧
    e.Undo.states_.length = e.states_.length ∧
    e.Redo.states_.length = e.states_.length := by
  have hu : e.Undo.states_ = e.states_ ∧ e.Undo.cursors_ = e.cursors_ := by
    unfold Editor.Undo; split_ifs <;> exact ⟨rfl, rfl⟩
  have hr : e.Redo.states_ = e.states_ ∧ e.Redo.cursors_ = e.cursors_ := by
    unfold Editor.Redo; split_ifs <;> exact ⟨rfl, rfl⟩
  refine ⟨?_, ?_, ?_, ?_, ?_, hu.1, hu.2, hr.1, hr.2, by rw [hu.1], by rw [hr.1]⟩
  · intro h0
    unfold Editor.Undo
    rw [if_neg (by simp [h0])]
  · intro h0
    unfold Editor.Undo
    rw [if_pos h0]
  · intro h0
    unfold Editor.Redo
    rw [if_neg (by rw [List.getElem?_eq_none_iff] at h0; omega)]
  · intro h0
    unfold Editor.Redo
    rw [if_neg (by omega)]
  · intro h0
    unfold Editor.Redo
    rw [if_pos (by
      by_contra h1
      exact h0 (List.getElem?_eq_none (by omega)))]

/-- C10 at the state reached by typing `a`, `b` and one `Undo()`: both `Undo()`
and `Redo()` move the pointer there. -/
theorem C10_undo_redo_move_pointer_only_witness :
    undoneAB.pos_ ≠ 0 ∧ undoneAB.states_[undoneAB.pos_ + 1]? ≠ none ∧
    undoneAB.Undo.pos_ = undoneAB.pos_ - 1 ∧ undoneAB.Redo.pos_ = undoneAB.pos_ + 1 ∧
    undoneAB.Undo.states_ = undoneAB.states_ ∧ undoneAB.Redo.states_ = undoneAB.states_ :=
  ⟨by decide, by decide,
    (C10_undo_redo_move_pointer_only undoneAB).2.1 (by decide),
    (C10_undo_redo_move_pointer_only undoneAB).2.2.2.2.1 (by decide),
    (C10_undo_redo_move_pointer_only undoneAB).2.2.2.2.2.1,
    (C10_undo_redo_move_pointer_only undoneAB).2.2.2.2.2.2.2.1⟩

/-! ## Round trip, heap order and failure of Split -/

namespace Node

variable {T : Type}

theorem Split_none_of_gt (t : Node T) (k : Nat) (ht : SizeOk t) (hk : Size t < k) :
    Split t k = none := by
  induction t generalizing k with
  | null =>
    rw [Size_null] at hk
    rw [Split, if_neg (by omega), if_neg (by rw [Size_null]; omega)]
  | cell d s p l r ihl ihr =>
    obtain ⟨hs, hl, hr⟩ := ht
    rw [Size_cell] at hk
    rw [Split_cell, if_neg (by omega), if_neg (by omega), if_neg (by omega),
      ihr (k - Size l - 1) hr (by omega)]
    rfl

end Node

namespace Node

variable {T : Type}

theorem Split_sizes (t : Node T) (k : Nat) (L R : Node T) (ht : SizeOk t) (hk : k ≤ Size t)
    (h : Split t k = some (L, R)) : Size L = k ∧ Size R = Size t - k := by
  obtain ⟨L', R', hs, hL, hR, pL, pR⟩ := Split_spec t k ht hk
  rw [hs] at h
  cases h
  have hlen := Size_eq_length t ht
  constructor
  · rw [Size_eq_length _ hL, pL, List.length_take]; omega
  · rw [Size_eq_length _ hR, pR, List.length_drop, hlen]

theorem rootRel_make (R : Nat → Nat → Prop) (p : Nat) (d : T) (q : Nat) (l r : Node T) :
    rootRel R p (make d q l r) = R p q := rfl

theorem HeapBy_make (R : Nat → Nat → Prop) (d : T) (q : Nat) (l r : Node T)
    (h1 : rootRel R q l) (h2 : rootRel R q r) (h3 : HeapBy R l) (h4 : HeapBy R r) :
    HeapBy R (make d q l r) := ⟨h1, h2, h3, h4⟩

theorem rootRel_trans {R : Nat → Nat → Prop} (htr : ∀ a b c, R a b → R b c → R a c)
    {p q : Nat} (hpq : R p q) {t : Node T} (h : rootRel R q t) : rootRel R p t := by
  cases t with
  | null => trivial
  | cell d s x l r => exact htr _ _ _ hpq h

theorem Merge_rootRel (R : Nat → Nat → Prop) (p : Nat) (l r : Node T)
    (hl : rootRel R p l) (hr : rootRel R p r) : rootRel R p (Merge l r) := by
  cases l with
  | null => exact hr
  | cell ld ls lp ll lr =>
    cases r with
    | null => rw [Merge_null_right]; exact hl
    | cell rd rs rp rl rr =>
      rw [Merge_cell]
      split
      · exact hl
      · exact hr

theorem Merge_HeapOk (l r : Node T) (hl : HeapOk l) (hr : HeapOk r) : HeapOk (Merge l r) := by
  induction l generalizing r with
  | null => exact hr
  | cell ld ls lp ll lr _ ihlr =>
    induction r with
    | null => rw [Merge_null_right]; exact hl
    | cell rd rs rp rl rr ihrl _ =>
      obtain ⟨l1, l2, l3, l4⟩ := hl
      obtain ⟨r1, r2, r3, r4⟩ := hr
      rw [Merge_cell]
      split
      · rename_i hlt
        refine HeapBy_make _ _ _ _ _ l1 ?_ l3 (ihlr _ l4 ⟨r1, r2, r3, r4⟩)
        exact Merge_rootRel _ _ _ _ l2 (Nat.le_of_lt hlt)
      · rename_i hge
        refine HeapBy_make _ _ _ _ _ ?_ r2 (ihrl r3) r4
        exact Merge_rootRel _ _ _ _ (Nat.le_of_not_lt hge) r1

theorem Split_rootRel {R : Nat → Nat → Prop} (htr : ∀ a b c, R a b → R b c → R a c)
    (t : Node T) (k p : Nat) (L R' : Node T) (ht : HeapBy R t) (hp : rootRel R p t)
    (h : Split t k = some (L, R')) : rootRel R p L ∧ rootRel R p R' := by
  induction t generalizing k L R' with
  | null =>
    by_cases h0 : k = 0
    · subst h0; rw [Split_zero] at h; cases h; exact ⟨trivial, trivial⟩
    · rw [Split] at h
      simp [h0, Size_null] at h
  | cell d s q l r ihl ihr =>
    obtain ⟨h1, h2, h3, h4⟩ := ht
    rw [Split_cell] at h
    split_ifs at h
    · cases h; exact ⟨trivial, hp⟩
    · cases h; exact ⟨hp, trivial⟩
    · cases hsp : Split l k with
      | none => rw [hsp] at h; cases h
      | some x =>
        obtain ⟨a, b⟩ := x
        rw [hsp] at h
        cases h
        exact ⟨(ihl k a b h3 (rootRel_trans htr hp h1) hsp).1, hp⟩
    · cases hsp : Split r (k - Size l - 1) with
      | none => rw [hsp] at h; cases h
      | some x =>
        obtain ⟨a, b⟩ := x
        rw [hsp] at h
        cases h
        exact ⟨hp, (ihr _ a b h4 (rootRel_trans htr hp h2) hsp).2⟩

theorem Split_HeapBy {R : Nat → Nat → Prop} (htr : ∀ a b c, R a b → R b c → R a c)
    (t : Node T) (k : Nat) (L R' : Node T) (ht : HeapBy R t)
    (h : Split t k = some (L, R')) : HeapBy R L ∧ HeapBy R R' := by
  induction t generalizing k L R' with
  | null =>
    by_cases h0 : k = 0
    · subst h0; rw [Split_zero] at h; cases h; exact ⟨trivial, trivial⟩
    · rw [Split] at h
      simp [h0, Size_null] at h
  | cell d s q l r ihl ihr =>
    obtain ⟨h1, h2, h3, h4⟩ := ht
    rw [Split_cell] at h
    split_ifs at h
    · cases h; exact ⟨trivial, h1, h2, h3, h4⟩
    · cases h; exact ⟨⟨h1, h2, h3, h4⟩, trivial⟩
    · cases hsp : Split l k with
      | none => rw [hsp] at h; cases h
      | some x =>
        obtain ⟨a, b⟩ := x
        rw [hsp] at h
        cases h
        obtain ⟨ha, hb⟩ := ihl k a b h3 hsp
        exact ⟨ha, HeapBy_make _ _ _ _ _ (Split_rootRel htr l k q a b h3 h1 hsp).2 h2 hb h4⟩
    · cases hsp : Split r (k - Size l - 1) with
      | none => rw [hsp] at h; cases h
      | some x =>
        obtain ⟨a, b⟩ := x
        rw [hsp] at h
        cases h
        obtain ⟨ha, hb⟩ := ihr _ a b h4 hsp
        exact ⟨HeapBy_make _ _ _ _ _ h1 (Split_rootRel htr r _ q a b h4 h2 hsp).1 h3 ha, hb⟩

theorem Split_HeapOk (t : Node T) (k : Nat) (L R : Node T) (ht : HeapOk t)
    (h : Split t k = some (L, R)) : HeapOk L ∧ HeapOk R :=
  Split_HeapBy (R := fun p q => p ≤ q) (fun _ _ _ => Nat.le_trans) t k L R ht h

theorem HeapOk_leaf (d : T) (p : Nat) : HeapOk (leaf d p) := ⟨trivial, trivial, trivial, trivial⟩

theorem Split_Merge_eq (t : Node T) (k : Nat) (hh : StrictHeap t) (ht : SizeOk t)
    (hk : k ≤ Size t) : ∃ L R, Split t k = some (L, R) ∧ Merge L R = t := by
  induction t generalizing k with
  | null =>
    have : k = 0 := by simpa [Size_null] using hk
    subst this
    exact ⟨null, null, Split_zero _, rfl⟩
  | cell d s q l r ihl ihr =>
    by_cases h0 : k = 0
    · subst h0
      exact ⟨null, _, Split_zero _, rfl⟩
    rw [Size_cell] at hk
    by_cases h1 : k = s
    · exact ⟨_, null, by rw [Split_cell, if_neg h0, if_pos h1], Merge_null_right _⟩
    obtain ⟨g1, g2, g3, g4⟩ := hh
    obtain ⟨hs, hl, hr⟩ := ht
    have htr : ∀ a b c : Nat, a < b → b < c → a < c := fun _ _ _ => Nat.lt_trans
    by_cases h2 : Size l ≥ k
    · obtain ⟨a, b, hsp, hm⟩ := ihl k g3 hl h2
      have hsz := (Split_sizes l k a b hl h2 hsp).1
      have hroot := (Split_rootRel htr l k q a b g3 g1 hsp).1
      refine ⟨a, make d q b r, ?_, ?_⟩
      · rw [Split_cell, if_neg h0, if_neg h1, if_pos h2, hsp]; rfl
      · cases a with
        | null => rw [Size_null] at hsz; omega
        | cell ad as ap al ar =>
          have hlt : ¬ ap < q := Nat.not_lt.mpr (Nat.le_of_lt hroot)
          unfold make
          rw [Merge_cell, if_neg hlt]
          simp only [WithLeft]
          rw [hm]
          unfold make
          congr 1; omega
    · have hk' : k - Size l - 1 ≤ Size r := by omega
      obtain ⟨a, b, hsp, hm⟩ := ihr (k - Size l - 1) g4 hr hk'
      have hsz := (Split_sizes r _ a b hr hk' hsp).2
      have hroot := (Split_rootRel htr r _ q a b g4 g2 hsp).2
      refine ⟨make d q l a, b, ?_, ?_⟩
      · rw [Split_cell, if_neg h0, if_neg h1, if_neg h2, hsp]; rfl
      · cases b with
        | null => rw [Size_null] at hsz; omega
        | cell bd bs bp bl br =>
          have hlt : q < bp := hroot
          unfold make
          rw [Merge_cell, if_pos hlt]
          simp only [WithRight]
          rw [hm]
          unfold make
          congr 1; omega

theorem rootRel_lt_of_not_mem (p : Nat) (t : Node T) (h : rootRel (fun a b => a ≤ b) p t)
    (hn : p ∉ priorities t) : rootRel (fun a b => a < b) p t := by
  cases t with
  | null => trivial
  | cell d s q l r =>
    have hne : p ≠ q := by
      intro he
      apply hn
      simp [priorities, he]
    exact Nat.lt_of_le_of_ne h hne

theorem StrictHeap_of_nodup (t : Node T) (h : HeapOk t) (hn : (priorities t).Nodup) :
    StrictHeap t := by
  induction t with
  | null => trivial
  | cell d s p l r ihl ihr =>
    obtain ⟨h1, h2, h3, h4⟩ := h
    simp only [priorities] at hn
    rw [List.nodup_append] at hn
    obtain ⟨nl, nr, hdis⟩ := hn
    rw [List.nodup_cons] at nr
    refine ⟨rootRel_lt_of_not_mem p l h1 ?_, rootRel_lt_of_not_mem p r h2 nr.1,
      ihl h3 nl, ihr h4 nr.2⟩
    intro hm
    exact hdis hm (List.mem_cons_self _ _)

end Node

/-! ## Invariants of the stored history -/

namespace Editor

theorem mem_push_states {e : Editor} {r0 : Node Char} {c : Nat} {r : Node Char}
    (h : r ∈ (e.push r0 c).states_) : r ∈ e.states_ ∨ r = r0 := by
  simp only [push, List.mem_append, List.mem_singleton] at h
  rcases h with h | h
  · exact Or.inl (List.mem_of_mem_take h)
  · exact Or.inr h

theorem push_heap {e : Editor} (hh : ∀ r ∈ e.states_, HeapOk r) {r0 : Node Char}
    (h0 : HeapOk r0) (c : Nat) : ∀ r ∈ (e.push r0 c).states_, HeapOk r := by
  intro r hr
  rcases mem_push_states hr with h | h
  · exact hh r h
  · rw [h]; exact h0

theorem step_heap {e e' : Editor} (h : WellFormed e) (hh : ∀ r ∈ e.states_, HeapOk r)
    (op : Op) (hs : e.step op = some e') : ∀ r ∈ e'.states_, HeapOk r := by
  obtain ⟨r, c, hr, hc, hok, hle⟩ := h.current
  have hrh : HeapOk r := hh r (List.getElem?_mem hr)
  cases op with
  | type symbol priority =>
    simp only [step, TypeSymbol_eq h.pos_lt h.len_eq hr hc] at hs
    cases hsp : Split r c with
    | none => rw [hsp] at hs; cases hs
    | some x =>
      rw [hsp] at hs
      cases hs
      obtain ⟨ha, hb⟩ := Split_HeapOk r c x.1 x.2 hrh hsp
      exact push_heap hh (Merge_HeapOk _ _ ha (Merge_HeapOk _ _ (HeapOk_leaf _ _) hb)) _
  | shiftLeft =>
    simp only [step, ShiftLeft_eq h.pos_lt h.len_eq hr hc] at hs
    split_ifs at hs
    · cases hs; exact hh
    · cases hs; exact push_heap hh hrh _
  | shiftRight =>
    simp only [step, ShiftRight_eq h.pos_lt h.len_eq hr hc] at hs
    split_ifs at hs
    · cases hs; exact hh
    · cases hs; exact push_heap hh hrh _
  | backspace =>
    simp only [step, Backspace_eq h.pos_lt h.len_eq hr hc] at hs
    split_ifs at hs
    · cases hs; exact push_heap hh hrh _
    · cases hsp : Split r (c - 1) with
      | none => rw [hsp] at hs; cases hs
      | some x =>
        rw [hsp] at hs
        simp only [Option.some_bind] at hs
        cases hsp2 : Split x.2 1 with
        | none => rw [hsp2] at hs; cases hs
        | some y =>
          rw [hsp2] at hs
          cases hs
          obtain ⟨ha, hb⟩ := Split_HeapOk r (c - 1) x.1 x.2 hrh hsp
          obtain ⟨_, hd⟩ := Split_HeapOk x.2 1 y.1 y.2 hb hsp2
          exact push_heap hh (Merge_HeapOk _ _ ha hd) _
  | undo =>
    cases hs
    unfold Undo
    split_ifs <;> exact hh
  | redo =>
    cases hs
    unfold Redo
    split_ifs <;> exact hh

theorem run_heap {e e' : Editor} (h : WellFormed e) (hh : ∀ r ∈ e.states_, HeapOk r)
    (ops : List Op) (hrun : e.run ops = some e') : ∀ r ∈ e'.states_, HeapOk r := by
  induction ops generalizing e with
  | nil => cases hrun; exact hh
  | cons op ops ih =>
    obtain ⟨e1, h1, hw⟩ := WellFormed_step h op
    simp only [run, h1, Option.some_bind] at hrun
    exact ih hw (step_heap h hh op h1) hrun

theorem Reachable.heap {e : Editor} (h : e.Reachable) : ∀ r ∈ e.states_, HeapOk r := by
  obtain ⟨ops, hops⟩ := h
  refine run_heap WellFormed_init ?_ ops hops
  intro r hr
  simp only [init, List.mem_singleton] at hr
  rw [hr]
  trivial

/-! ## Runs that differ only in the priorities -/

theorem texts_push (e : Editor) (r : Node Char) (c : Nat) :
    (e.push r c).texts = e.texts.take (e.pos_ + 1) ++ [PrintTo r []] := by
  simp [texts, push, List.map_take]

theorem Agree.length_eq {e1 e2 : Editor} (ha : Agree e1 e2) :
    e1.states_.length = e2.states_.length := by
  have := congrArg List.length ha.2.1
  simpa [texts] using this

theorem Agree.push {e1 e2 : Editor} (ha : Agree e1 e2) {r1 r2 : Node Char}
    (hp : PrintTo r1 [] = PrintTo r2 []) (c : Nat) : Agree (e1.push r1 c) (e2.push r2 c) := by
  obtain ⟨h1, h2, h3⟩ := ha
  refine ⟨?_, ?_, ?_⟩
  · simp only [push_pos, h1]
  · rw [texts_push, texts_push, h1, h2, hp]
  · simp only [Editor.push, h1, h3]

theorem Agree.current_roots {e1 e2 : Editor} (h1 : WellFormed e1) (h2 : WellFormed e2)
    (ha : Agree e1 e2) :
    ∃ r1 r2 c, e1.states_[e1.pos_]? = some r1 ∧ e2.states_[e2.pos_]? = some r2 ∧
      e1.cursors_[e1.pos_]? = some c ∧ e2.cursors_[e2.pos_]? = some c ∧
      SizeOk r1 ∧ SizeOk r2 ∧ PrintTo r1 [] = PrintTo r2 [] ∧ c ≤ Size r1 := by
  obtain ⟨r1, c1, hr1, hc1, ok1, le1⟩ := h1.current
  obtain ⟨r2, c2, hr2, hc2, ok2, _⟩ := h2.current
  obtain ⟨hp, ht, hcs⟩ := ha
  have hc : c1 = c2 := by
    rw [hcs, hp, hc2] at hc1
    exact (Option.some.inj hc1).symm
  have hpr : PrintTo r1 [] = PrintTo r2 [] := by
    have := congrArg (fun l => l[e1.pos_]?) ht
    simp only [texts, List.getElem?_map, hr1] at this
    rw [hp, hr2] at this
    exact Option.some.inj this
  subst hc
  exact ⟨r1, r2, c1, hr1, hr2, hc1, hc2, ok1, ok2, hpr, le1⟩

theorem step_agree {e1 e2 : Editor} (h1 : WellFormed e1) (h2 : WellFormed e2)
    (ha : Agree e1 e2) (op1 op2 : Op) (hop : op1.unprioritised = op2.unprioritised) :
    ∃ e1' e2', e1.step op1 = some e1' ∧ e2.step op2 = some e2' ∧
      WellFormed e1' ∧ WellFormed e2' ∧ Agree e1' e2' := by
  obtain ⟨r1, r2, c, hr1, hr2, hc1, hc2, ok1, ok2, hpr, hle⟩ := Agree.current_roots h1 h2 ha
  obtain ⟨e1', s1, w1⟩ := WellFormed_step h1 op1
  obtain ⟨e2', s2, w2⟩ := WellFormed_step h2 op2
  refine ⟨e1', e2', s1, s2, w1, w2, ?_⟩
  have hsz : Size r1 = Size r2 := by
    rw [Size_eq_length r1 ok1, Size_eq_length r2 ok2, hpr]
  cases op1 with
  | type symbol priority =>
    cases op2 <;> simp only [Op.unprioritised, Op.type.injEq, reduceCtorEq] at hop
    rename_i symbol2 priority2
    obtain ⟨rfl, _⟩ := hop
    obtain ⟨r1', t1, _, p1⟩ := TypeSymbol_spec h1 hr1 hc1 symbol priority
    obtain ⟨r2', t2, _, p2⟩ := TypeSymbol_spec h2 hr2 hc2 symbol priority2
    simp only [step, t1, Option.some.injEq] at s1
    simp only [step, t2, Option.some.injEq] at s2
    rw [← s1, ← s2]
    exact Agree.push ha (by rw [p1, p2, hpr]) _
  | shiftLeft =>
    cases op2 <;> simp only [Op.unprioritised, reduceCtorEq] at hop
    simp only [step, ShiftLeft_eq h1.pos_lt h1.len_eq hr1 hc1] at s1
    simp only [step, ShiftLeft_eq h2.pos_lt h2.len_eq hr2 hc2] at s2
    by_cases h0 : Size r1 = 0
    · rw [if_pos h0] at s1
      rw [if_pos (hsz ▸ h0)] at s2
      cases s1; cases s2; exact ha
    · rw [if_neg h0] at s1
      rw [if_neg (hsz ▸ h0)] at s2
      cases s1; cases s2
      exact Agree.push ha hpr _
  | shiftRight =>
    cases op2 <;> simp only [Op.unprioritised, reduceCtorEq] at hop
    simp only [step, ShiftRight_eq h1.pos_lt h1.len_eq hr1 hc1] at s1
    simp only [step, ShiftRight_eq h2.pos_lt h2.len_eq hr2 hc2] at s2
    by_cases h0 : Size r1 = c
    · rw [if_pos h0] at s1
      rw [if_pos (hsz ▸ h0)] at s2
      cases s1; cases s2; exact ha
    · rw [if_neg h0] at s1
      rw [if_neg (hsz ▸ h0)] at s2
      cases s1; cases s2
      exact Agree.push ha hpr _
  | backspace =>
    cases op2 <;> simp only [Op.unprioritised, reduceCtorEq] at hop
    obtain ⟨r1', t1, _, _, p1⟩ := Backspace_spec h1 hr1 hc1
    obtain ⟨r2', t2, _, _, p2⟩ := Backspace_spec h2 hr2 hc2
    simp only [step, t1, Option.some.injEq] at s1
    simp only [step, t2, Option.some.injEq] at s2
    rw [← s1, ← s2]
    exact Agree.push ha (by rw [p1, p2, hpr]) _
  | undo =>
    cases op2 <;> simp only [Op.unprioritised, reduceCtorEq] at hop
    cases s1; cases s2
    obtain ⟨hp, ht, hcs⟩ := ha
    unfold Undo
    rw [hp]
    split_ifs
    · exact ⟨rfl, ht, hcs⟩
    · exact ⟨hp, ht, hcs⟩
  | redo =>
    cases op2 <;> simp only [Op.unprioritised, reduceCtorEq] at hop
    cases s1; cases s2
    have hl := Agree.length_eq ha
    obtain ⟨hp, ht, hcs⟩ := ha
    unfold Redo
    rw [hp, hl]
    split_ifs
    · exact ⟨rfl, ht, hcs⟩
    · exact ⟨hp, ht, hcs⟩

theorem run_agree {e1 e2 : Editor} (h1 : WellFormed e1) (h2 : WellFormed e2)
    (ha : Agree e1 e2) (ops1 ops2 : List Op)
    (hops : ops1.map Op.unprioritised = ops2.map Op.unprioritised) :
    ∃ e1' e2', e1.run ops1 = some e1' ∧ e2.run ops2 = some e2' ∧ Agree e1' e2' := by
  induction ops1 generalizing ops2 e1 e2 with
  | nil =>
    cases ops2 with
    | nil => exact ⟨e1, e2, rfl, rfl, ha⟩
    | cons op ops => simp at hops
  | cons op1 ops1 ih =>
    cases ops2 with
    | nil => simp at hops
    | cons op2 ops2 =>
      simp only [List.map_cons, List.cons.injEq] at hops
      obtain ⟨f1, f2, s1, s2, w1, w2, ha'⟩ := step_agree h1 h2 ha op1 op2 hops.1
      obtain ⟨g1, g2, r1, r2, hg⟩ := ih w1 w2 ha' ops2 hops.2
      exact ⟨g1, g2, by simp only [run, s1, Option.some_bind, r1],
        by simp only [run, s2, Option.some_bind, r2], hg⟩

end Editor

/-! ## The engine with sizes in `size_t` -/

namespace Node

variable {T : Type}

end Node

namespace Node

variable {T : Type}

end Node

namespace Editor

end Editor

/-! ## Claims C11 to C20 -/

/-- C11: for every size-consistent tree `t` and every `k ≤ Size t`, `Split t k`
returns a pair `(L, R)` and the in-order sequence of `Merge L R` is the in-order
sequence of `t`. -/
theorem C11_split_merge_round_trip {T : Type} (t : Node T) (k : Nat) (ht : SizeOk t)
    (hk : k ≤ Size t) :
    ∃ L R, Split t k = some (L, R) ∧ PrintTo (Merge L R) [] = PrintTo t [] := by
  obtain ⟨L, R, hs, _, _, pL, pR⟩ := Split_spec t k ht hk
  refine ⟨L, R, hs, ?_⟩
  rw [Merge_print, pL, pR, List.take_append_drop]

/-- C11 at the three-node tree `a b c` and rank 1. -/
theorem C11_split_merge_round_trip_witness :
    SizeOk sampleTree ∧ 1 ≤ Size sampleTree ∧
    ∃ L R, Split sampleTree 1 = some (L, R) ∧
      PrintTo (Merge L R) [] = PrintTo sampleTree [] :=
  ⟨by decide, by decide, C11_split_merge_round_trip sampleTree 1 (by decide) (by decide)⟩

/-- C13: in every reachable state each of the seven calls completes: every call
of `Type`, `ShiftLeft`, `ShiftRight`, `Backspace`, `Undo`, `Redo` returns a state,
again reachable, and `GetText` returns; `pos_` is an index into both vectors; the
rank `c` that `Type` passes to `Split` satisfies `c ≤ Size(root)`; and when
`c ≠ 0` the rank `c - 1` of the first `Split` of `Backspace` is `≤ Size(root)` and
the rank 1 of its second `Split` is `≤ Size(mid_after)`. -/
theorem C13_no_errors_at_editor_boundary (e : Editor) (he : e.Reachable) :
    (∀ op : Op, ∃ e', e.step op = some e' ∧ e'.Reachable) ∧
    (∃ s, e.GetText = some s) ∧
    e.pos_ < e.states_.length ∧ e.pos_ < e.cursors_.length ∧
    ∃ r c, e.states_[e.pos_]? = some r ∧ e.cursors_[e.pos_]? = some c ∧
      SizeOk r ∧ c ≤ Size r ∧ (∃ b a, Split r c = some (b, a)) ∧
      (c ≠ 0 → c - 1 ≤ Size r ∧
        ∃ b ma, Split r (c - 1) = some (b, ma) ∧ SizeOk ma ∧ 1 ≤ Size ma ∧
          ∃ m a, Split ma 1 = some (m, a)) := by
  have h := he.wellFormed
  obtain ⟨r, c, hr, hc, hok, hle⟩ := h.current
  refine ⟨?_, ?_, h.pos_lt, h.len_eq ▸ h.pos_lt, r, c, hr, hc, hok, hle, ?_, ?_⟩
  · intro op
    obtain ⟨e', hs, _⟩ := Editor.WellFormed_step h op
    exact ⟨e', hs, he.step op hs⟩
  · obtain ⟨_, _, _, _, _, _, hg, _⟩ := h.view
    exact ⟨_, hg⟩
  · obtain ⟨b, a, hs, _⟩ := Split_spec r c hok hle
    exact ⟨b, a, hs⟩
  · intro h0
    have hle1 : c - 1 ≤ Size r := by omega
    obtain ⟨b, ma, hs, _, hma, _, _⟩ := Split_spec r (c - 1) hok hle1
    have hsz := (Split_sizes r (c - 1) b ma hok hle1 hs).2
    have h1 : 1 ≤ Size ma := by omega
    obtain ⟨m, a, hs2, _⟩ := Split_spec ma 1 hma h1
    exact ⟨hle1, b, ma, hs, hma, h1, m, a, hs2⟩

/-- C13 at the state reached by typing `a`. -/
theorem C13_no_errors_at_editor_boundary_witness :
    Editor.Reachable typedA ∧
    (∀ op : Op, ∃ e', typedA.step op = some e' ∧ e'.Reachable) ∧
    (∃ s, typedA.GetText = some s) :=
  ⟨⟨[Op.type 'a' 5], by decide⟩,
    (C13_no_errors_at_editor_boundary typedA ⟨[Op.type 'a' 5], by decide⟩).1,
    (C13_no_errors_at_editor_boundary typedA ⟨[Op.type 'a' 5], by decide⟩).2.1⟩

/-- C14: in every reachable state with pointer `pos_`, each of `Type(ch)`,
`Backspace()`, `ShiftLeft()` on a non-empty buffer and `ShiftRight()` with the
cursor before the end returns, writes a version at index `pos_ + 1`, makes both
vectors exactly `pos_ + 2` long, sets the pointer to `pos_ + 1`, and leaves the
roots and cursors at the indices `0..pos_`, so also their texts, unchanged. -/
theorem C14_prior_versions_stay_valid (e : Editor) (he : e.Reachable) (op : Op)
    (hs : e.stores op = true) :
    ∃ e', e.step op = some e' ∧
      e'.pos_ = e.pos_ + 1 ∧
      e'.states_.length = e.pos_ + 2 ∧ e'.cursors_.length = e.pos_ + 2 ∧
      (∃ r c, e'.states_[e.pos_ + 1]? = some r ∧ e'.cursors_[e.pos_ + 1]? = some c) ∧
      (∀ i, i ≤ e.pos_ →
        e'.states_[i]? = e.states_[i]? ∧ e'.cursors_[i]? = e.cursors_[i]? ∧
        e'.texts[i]? = e.texts[i]?) := by
  have h := he.wellFormed
  have hm : op.mutating = true := by
    cases op <;> first | rfl | cases hs
  obtain ⟨e', h1, hw, hcase⟩ := Editor.step_mutating h hm
  have hp2 : e.pos_ < e.cursors_.length := h.len_eq ▸ h.pos_lt
  rcases hcase with ⟨_, r, c, rfl⟩ | ⟨hf, _⟩
  · have hl := Editor.push_states_length h.pos_lt r c
    refine ⟨_, h1, rfl, hl, hw.len_eq ▸ hl, ⟨r, c, ?_, ?_⟩, ?_⟩
    · rw [Editor.push_states_getElem? h.pos_lt, if_neg (by omega), if_pos rfl]
    · rw [Editor.push_cursors_getElem? hp2, if_neg (by omega), if_pos rfl]
    · intro i hi
      have e1 : (e.push r c).states_[i]? = e.states_[i]? := by
        rw [Editor.push_states_getElem? h.pos_lt, if_pos (by omega)]
      have e2 : (e.push r c).cursors_[i]? = e.cursors_[i]? := by
        rw [Editor.push_cursors_getElem? hp2, if_pos (by omega)]
      refine ⟨e1, e2, ?_⟩
      simp only [Editor.texts, List.getElem?_map, e1]
  · rw [hs] at hf; cases hf

/-- C14 at the state reached by typing `a`, `b` and one `Undo()`: `Backspace()`
there overwrites the stored version 2. -/
theorem C14_prior_versions_stay_valid_witness :
    Editor.Reachable undoneAB ∧ undoneAB.stores Op.backspace = true ∧
    ∃ e', undoneAB.step Op.backspace = some e' ∧
      e'.pos_ = undoneAB.pos_ + 1 ∧
      e'.states_.length = undoneAB.pos_ + 2 ∧ e'.cursors_.length = undoneAB.pos_ + 2 ∧
      (∃ r c, e'.states_[undoneAB.pos_ + 1]? = some r ∧
        e'.cursors_[undoneAB.pos_ + 1]? = some c) ∧
      (∀ i, i ≤ undoneAB.pos_ →
        e'.states_[i]? = undoneAB.states_[i]? ∧ e'.cursors_[i]? = undoneAB.cursors_[i]? ∧
        e'.texts[i]? = undoneAB.texts[i]?) :=
  ⟨⟨[Op.type 'a' 5, Op.type 'b' 3, Op.undo], by decide⟩, rfl,
    C14_prior_versions_stay_valid undoneAB ⟨[Op.type 'a' 5, Op.type 'b' 3, Op.undo], by decide⟩
      Op.backspace rfl⟩

/-- C16: a leaf is heap-ordered; if `l` and `r` are heap-ordered then so is
`Merge l r`, equal root priorities included; if `t` is heap-ordered and
size-consistent and `k ≤ Size t` then `Split t k` returns two heap-ordered
trees; and every root stored in the history of a reachable editor is
heap-ordered, whatever priorities were drawn. -/
theorem C16_min_heap_preserved {T : Type} :
    (∀ (d : T) (p : Nat), HeapOk (leaf d p)) ∧
    (∀ l r : Node T, HeapOk l → HeapOk r → HeapOk (Merge l r)) ∧
    (∀ (t : Node T) (k : Nat), HeapOk t → SizeOk t → k ≤ Size t →
      ∃ L R, Split t k = some (L, R) ∧ HeapOk L ∧ HeapOk R) ∧
    (∀ e : Editor, e.Reachable → ∀ r ∈ e.states_, HeapOk r) := by
  refine ⟨HeapOk_leaf, Merge_HeapOk, ?_, fun e he => he.heap⟩
  intro t k hh ht hk
  obtain ⟨L, R, hs, _⟩ := Split_spec t k ht hk
  exact ⟨L, R, hs, Split_HeapOk t k L R hh hs⟩

/-- C16 at two leaves of equal priority, at the three-node tree `a b c` with rank
2, and at the state reached by typing `a` and `b`. -/
theorem C16_min_heap_preserved_witness :
    HeapOk (Merge (leaf 'a' 4) (leaf 'b' 4)) ∧
    (HeapOk sampleTree ∧ SizeOk sampleTree ∧ 2 ≤ Size sampleTree ∧
      ∃ L R, Split sampleTree 2 = some (L, R) ∧ HeapOk L ∧ HeapOk R) ∧
    (Editor.Reachable undoneAB.Redo ∧ ∀ r ∈ undoneAB.Redo.states_, HeapOk r) :=
  ⟨(C16_min_heap_preserved (T := Char)).2.1 _ _ (by decide) (by decide),
    ⟨by decide, by decide, by decide,
      (C16_min_heap_preserved (T := Char)).2.2.1 sampleTree 2 (by decide) (by decide)
        (by decide)⟩,
    ⟨⟨[Op.type 'a' 5, Op.type 'b' 3], by decide⟩,
      (C16_min_heap_preserved (T := Char)).2.2.2 undoneAB.Redo
        ⟨[Op.type 'a' 5, Op.type 'b' 3], by decide⟩⟩⟩

/-- C17: in every reachable state the root vector and the cursor vector have the
same length, at least 1; `pos_` is an index into them; version 0 is the empty
tree with cursor 0; and every stored version `i`, not only the current one, has
`cursor_i ≤ Size(root_i)`. -/
theorem C17_editor_state_invariant (e : Editor) (he : e.Reachable) :
    e.states_.length = e.cursors_.length ∧ 1 ≤ e.states_.length ∧
    e.pos_ < e.states_.length ∧
    e.states_[0]? = some null ∧ e.cursors_[0]? = some 0 ∧
    (∀ i, i < e.states_.length →
      ∃ r c, e.states_[i]? = some r ∧ e.cursors_[i]? = some c ∧ c ≤ Size r) := by
  have h := he.wellFormed
  have hp := h.pos_lt
  refine ⟨h.len_eq, by omega, hp, h.first.1, h.first.2, ?_⟩
  intro i hi
  have hi2 : i < e.cursors_.length := h.len_eq ▸ hi
  exact ⟨e.states_[i], e.cursors_[i], List.getElem?_eq_getElem hi,
    List.getElem?_eq_getElem hi2,
    (h.ok i _ _ (List.getElem?_eq_getElem hi) (List.getElem?_eq_getElem hi2)).2⟩

/-- C17 at the state reached by typing `a`, `b` and one `Undo()`. -/
theorem C17_editor_state_invariant_witness :
    Editor.Reachable undoneAB ∧
    undoneAB.states_.length = undoneAB.cursors_.length ∧ 1 ≤ undoneAB.states_.length ∧
    undoneAB.pos_ < undoneAB.states_.length ∧
    undoneAB.states_[0]? = some null ∧ undoneAB.cursors_[0]? = some 0 ∧
    (∀ i, i < undoneAB.states_.length →
      ∃ r c, undoneAB.states_[i]? = some r ∧ undoneAB.cursors_[i]? = some c ∧ c ≤ Size r) :=
  ⟨⟨[Op.type 'a' 5, Op.type 'b' 3, Op.undo], by decide⟩,
    C17_editor_state_invariant undoneAB ⟨[Op.type 'a' 5, Op.type 'b' 3, Op.undo], by decide⟩⟩

/-- C18: for every size-consistent tree `t`, `nullptr` included, and every
natural number `k`, `Split t k` returns a pair, so never dereferences a
`nullptr`, if and only if `k ≤ Size t`; for `k > Size t` the recursion reaches
the dereference of a `nullptr` and returns no pair. -/
theorem C18_split_fails_exactly_out_of_range {T : Type} (t : Node T) (k : Nat)
    (ht : SizeOk t) :
    ((∃ L R, Split t k = some (L, R)) ↔ k ≤ Size t) ∧
    (Size t < k → Split t k = none) := by
  refine ⟨⟨?_, ?_⟩, Split_none_of_gt t k ht⟩
  · rintro ⟨L, R, hs⟩
    by_contra hk
    rw [Split_none_of_gt t k ht (by omega)] at hs
    cases hs
  · intro hk
    obtain ⟨L, R, hs, _⟩ := Split_spec t k ht hk
    exact ⟨L, R, hs⟩

/-- C18 at the three-node tree `a b c`: rank 4 is out of range and fails. -/
theorem C18_split_fails_exactly_out_of_range_witness :
    SizeOk sampleTree ∧ Size sampleTree < 4 ∧ Split sampleTree 4 = none ∧
    ((∃ L R, Split sampleTree 3 = some (L, R)) ↔ 3 ≤ Size sampleTree) :=
  ⟨by decide, by decide,
    (C18_split_fails_exactly_out_of_range sampleTree 4 (by decide)).2 (by decide),
    (C18_split_fails_exactly_out_of_range sampleTree 3 (by decide)).1⟩

/-- C19: take two finite sequences of calls that differ only in the priorities
drawn for the nodes that `Type` creates.  After every number `n` of steps both
runs have returned, and they agree on the version pointer, the history length,
the text and the cursor of every stored version, and so on what `GetText()` and
the current cursor give. -/
theorem C19_priorities_not_observable (ops1 ops2 : List Op)
    (h : ops1.map Op.unprioritised = ops2.map Op.unprioritised) (n : Nat) :
    ∃ e1 e2, Editor.init.run (ops1.take n) = some e1 ∧
      Editor.init.run (ops2.take n) = some e2 ∧
      e1.pos_ = e2.pos_ ∧
      e1.states_.length = e2.states_.length ∧
      e1.texts = e2.texts ∧ e1.cursors_ = e2.cursors_ ∧
      e1.GetText = e2.GetText ∧ e1.cursor = e2.cursor := by
  have h' : (ops1.take n).map Op.unprioritised = (ops2.take n).map Op.unprioritised := by
    rw [List.map_take, List.map_take, h]
  obtain ⟨e1, e2, r1, r2, ha⟩ :=
    Editor.run_agree Editor.WellFormed_init Editor.WellFormed_init ⟨rfl, rfl, rfl⟩ _ _ h'
  refine ⟨e1, e2, r1, r2, ha.1, ha.length_eq, ha.2.1, ha.2.2, ?_, ?_⟩
  · have := congrArg (fun l => l[e1.pos_]?) ha.2.1
    simp only [Editor.texts, List.getElem?_map] at this
    unfold Editor.GetText
    rw [← ha.1]
    cases h1 : e1.states_[e1.pos_]? <;> cases h2 : e2.states_[e1.pos_]? <;>
      simp only [h1, h2, Option.map_some', Option.map_none', reduceCtorEq,
        Option.some.injEq] at this
    · rfl
    · show some (String.mk _) = some (String.mk _)
      rw [this]
  · unfold Editor.cursor
    rw [ha.1, ha.2.2]

/-- C19 at two runs of `Type('a')`, `Type('b')`, `ShiftLeft()`, `Type('c')` whose
priorities are in opposite orders, after all four steps. -/
theorem C19_priorities_not_observable_witness :
    [Op.type 'a' 1, Op.type 'b' 2, Op.shiftLeft, Op.type 'c' 3].map Op.unprioritised =
      [Op.type 'a' 9, Op.type 'b' 8, Op.shiftLeft, Op.type 'c' 7].map Op.unprioritised ∧
    ∃ e1 e2,
      Editor.init.run ([Op.type 'a' 1, Op.type 'b' 2, Op.shiftLeft, Op.type 'c' 3].take 4)
        = some e1 ∧
      Editor.init.run ([Op.type 'a' 9, Op.type 'b' 8, Op.shiftLeft, Op.type 'c' 7].take 4)
        = some e2 ∧
      e1.pos_ = e2.pos_ ∧
      e1.states_.length = e2.states_.length ∧
      e1.texts = e2.texts ∧ e1.cursors_ = e2.cursors_ ∧
      e1.GetText = e2.GetText ∧ e1.cursor = e2.cursor :=
  ⟨by decide, C19_priorities_not_observable _ _ (by decide) 4⟩

/-- C20: for every size-consistent tree `t` in which every node's priority is
strictly smaller than the priorities of its child roots (as in a heap-ordered
tree whose priorities are pairwise distinct) and every `k ≤ Size t`, `Merge`
applied to the pair that `Split t k` returns is `t` itself: same shape, values,
priorities and stored sizes. -/
theorem C20_structural_round_trip {T : Type} (t : Node T) (k : Nat)
    (hh : StrictHeap t ∨ (HeapOk t ∧ (priorities t).Nodup)) (ht : SizeOk t)
    (hk : k ≤ Size t) :
    ∃ L R, Split t k = some (L, R) ∧ Merge L R = t := by
  have hs : StrictHeap t := by
    rcases hh with h | ⟨h1, h2⟩
    · exact h
    · exact StrictHeap_of_nodup t h1 h2
  exact Split_Merge_eq t k hs ht hk

/-- C20 at the three-node tree `a b c` and rank 2. -/
theorem C20_structural_round_trip_witness :
    (StrictHeap sampleTree ∨ (HeapOk sampleTree ∧ (priorities sampleTree).Nodup)) ∧
    SizeOk sampleTree ∧ 2 ≤ Size sampleTree ∧
    ∃ L R, Split sampleTree 2 = some (L, R) ∧ Merge L R = sampleTree :=
  ⟨Or.inl (by decide), by decide, by decide,
    C20_structural_round_trip sampleTree 2 (Or.inl (by decide)) (by decide) (by decide)⟩
